import Mathlib

/-!
Verification of the memory-bear filesystem/store synchronization core.

This file gives a shallow embedding of the synchronization core of the
repository:

* `src/memory_bear/watcher/sync.py` — `get_filesystem_files`,
  `get_weaviate_files`, `sync_notes` (reconciliation engine and change
  detector);
* `src/memory_bear/database/utils.py` — `MarkdownOperations.index_file`,
  `update_file`, `move_file`, `delete_file` (note record store adapter);
* `src/watcher/file_watcher.py` — `FileWatcherHandler.should_process_event`,
  `on_created`, `on_modified`, `on_moved`, `on_deleted` (live watcher).

Modelling conventions:

* The remote Weaviate collection is modelled as a list of records plus a
  fresh-id counter (`Store`).  Weaviate assigns a fresh uuid on insert and
  uuids are unique; the well-formedness predicate `WF` records exactly that
  primary-key guarantee.
* Timestamps are `Int` (comparisons in the source are plain datetime
  comparisons).
* Python `dict` is modelled as an association list built with
  position-preserving overwrite (`dinsert`), which is precisely CPython's
  insertion behaviour; `len`, membership and indexing agree with the model.
* The markdown parser (`parse_md_file`) is an external collaborator; it is
  modelled as a lookup in the filesystem state, a map from path to the
  parsed fields and the file's timestamps.
* Store calls and per-file metadata reads are modelled as total: per-item
  exception paths of the source (network failures, unreadable metadata,
  lines 37–45 of sync.py) are not exercised by the claims under
  verification.  The *top-level* scan failures of `get_filesystem_files`
  and `get_weaviate_files` (lines 50–52 and 85–87 of sync.py, where the
  `except` branch swallows the error and returns `{}`) are modelled
  explicitly by the `scanOk`/`queryOk` flags.  Because both helpers catch
  their own exceptions, the `except` branch of `sync_notes`
  (lines 184–186) is unreachable for scan failures, and `sync_notes` is
  modelled accordingly as total.
-/

set_option autoImplicit false

/-! ## Association-list dictionaries (Python `dict`) -/

/-- Keys of an association list, in order. -/
def akeys {α : Type} (l : List (String × α)) : List String :=
  l.map Prod.fst

/-- First-match lookup in an association list (Python `d[k]` on a dict with
unique keys agrees with this). -/
def alookup {α : Type} (k : String) : List (String × α) → Option α
  | [] => none
  | kv :: rest => if kv.1 = k then some kv.2 else alookup k rest

/-- Python `d[k] = v`: overwrite in place if the key is present (CPython
keeps the original position), else append. -/
def dinsert {α : Type} (d : List (String × α)) (k : String) (v : α) :
    List (String × α) :=
  if k ∈ akeys d then d.map (fun kv => if kv.1 = k then (k, v) else kv)
  else d ++ [(k, v)]

/-- Build a dict from a list of key/value pairs by repeated insertion
(later pairs overwrite earlier ones, as in the loops of
`get_filesystem_files` and `get_weaviate_files`). -/
def buildDict {α : Type} (l : List (String × α)) : List (String × α) :=
  l.foldl (fun d kv => dinsert d kv.1 kv.2) []

/-! ## Data model -/

/-- Fields the external markdown parser extracts from a file on disk,
together with the file's stat timestamps (`parse_md_file` in
`src/memory_bear/utils/markdown.py`). -/
structure FileData where
  title : String
  tags : List String
  content : String
  ctime : Int
  mtime : Int
  deriving DecidableEq, Repr

/-- Filesystem state: the markdown files currently on disk, path to data. -/
abbrev FS : Type := List (String × FileData)

/-- Result of `parse_md_file`. -/
structure Parsed where
  title : String
  tags : List String
  content : String
  file_path : String
  created_at : Int
  updated_at : Int
  deriving DecidableEq, Repr

/-- Model of `parse_md_file`: read the file at `p`; `created_at` is the
file's ctime and `updated_at` its mtime.  `none` models the exception a
missing/unreadable file raises. -/
def parse_md_file (fs : FS) (p : String) : Option Parsed :=
  (alookup p fs).map fun d =>
    { title := d.title, tags := d.tags, content := d.content,
      file_path := p, created_at := d.ctime, updated_at := d.mtime }

/-- One record of the remote collection (an IndexedNote). -/
structure IndexedNote where
  id : Nat
  file_path : String
  title : String
  content : String
  tags : List String
  created_at : Int
  updated_at : Int
  deriving DecidableEq, Repr

/-- The remote collection: records plus a counter supplying fresh ids. -/
structure Store where
  records : List IndexedNote
  nextId : Nat
  deriving DecidableEq, Repr

/-- Paths of all records, in store order. -/
def paths (s : Store) : List String :=
  s.records.map (fun r => r.file_path)

/-- Projection of a store to (file_path, updated_at) pairs in store order. -/
def sig (s : Store) : List (String × Int) :=
  s.records.map (fun r => (r.file_path, r.updated_at))

/-- The spec's path-uniqueness invariant: no two records share a
`file_path`. -/
def uniquePaths (s : Store) : Prop :=
  (paths s).Nodup

/-- Well-formedness of the store model: ids are unique (Weaviate uuids are
the primary key) and below the fresh-id counter. -/
def WF (s : Store) : Prop :=
  (s.records.map (fun r => r.id)).Nodup ∧ ∀ r ∈ s.records, r.id < s.nextId

/-! ## MarkdownOperations (`src/memory_bear/database/utils.py`) -/

/-- Model of `fetch_objects(filters=Filter.by_property("file_path").equal(p),
limit=1)`: the first record whose `file_path` equals `p`. -/
def findByPath (s : Store) (p : String) : Option IndexedNote :=
  s.records.find? (fun r => r.file_path = p)

/-- `MarkdownOperations.index_file` (utils.py lines 33–64): parse the file
and insert a new record; Weaviate assigns a fresh id.  Returns the new
store and the success flag. -/
def index_file (fs : FS) (s : Store) (p : String) : Store × Bool :=
  match parse_md_file fs p with
  | none => (s, false)
  | some d =>
      ({ records := s.records ++
           [{ id := s.nextId, file_path := d.file_path, title := d.title,
              content := d.content, tags := d.tags,
              created_at := d.created_at, updated_at := d.updated_at }],
         nextId := s.nextId + 1 }, true)

/-- `MarkdownOperations.update_file` (utils.py lines 66–113): find the
existing record by path (limit 1), parse the file, update title, content,
tags and `updated_at` in place by uuid; `file_path` and `created_at` are
left unchanged. -/
def update_file (fs : FS) (s : Store) (p : String) : Store × Bool :=
  match findByPath s p with
  | none => (s, false)
  | some r =>
      match parse_md_file fs p with
      | none => (s, false)
      | some d =>
          ({ s with records := s.records.map (fun q =>
               if q.id = r.id then
                 { q with title := d.title, content := d.content,
                          tags := d.tags, updated_at := d.updated_at }
               else q) }, true)

/-- `MarkdownOperations.move_file` (utils.py lines 115–160): find the
existing record by the old path, update only `file_path` by uuid. -/
def move_file (s : Store) (oldP newP : String) : Store × Bool :=
  match findByPath s oldP with
  | none => (s, false)
  | some r =>
      ({ s with records := s.records.map (fun q =>
           if q.id = r.id then { q with file_path := newP } else q) }, true)

/-- `MarkdownOperations.delete_file` (utils.py lines 162–197): find the
existing record by path; if none is found return `False`, else delete by
uuid. -/
def delete_file (s : Store) (p : String) : Store × Bool :=
  match findByPath s p with
  | none => (s, false)
  | some r =>
      ({ s with records := s.records.filter (fun q => q.id ≠ r.id) }, true)

/-! ## Reconciliation (`src/memory_bear/watcher/sync.py`) -/

/-- `get_filesystem_files` (sync.py lines 20–52): glob all markdown files
and map each path to its mtime.  `scanOk = false` models the top-level
`except` branch (lines 50–52), which logs and returns the empty dict. -/
def get_filesystem_files (scanOk : Bool) (fs : FS) : List (String × Int) :=
  if scanOk then fs.foldl (fun d pf => dinsert d pf.1 pf.2.mtime) []
  else []

/-- One object of a `fetch_objects` response carrying the requested return
properties; a property can be absent (the per-object `except` skips such
objects). -/
structure WObj where
  uuid : Nat
  file_path : Option String
  updated_at : Option Int
  deriving DecidableEq, Repr

/-- Model of `fetch_objects(return_properties=["file_path", "updated_at"],
limit=10000)` against the store: the first 10000 records, each with both
properties present.  `ok = false` models the query raising. -/
def storeQuery (s : Store) (ok : Bool) : Option (List WObj) :=
  if ok then
    some ((s.records.take 10000).map (fun r =>
      { uuid := r.id, file_path := some r.file_path,
        updated_at := some r.updated_at }))
  else none

/-- `get_weaviate_files` (sync.py lines 55–87): on query failure
(lines 85–87) log and return the empty dict; otherwise fold the response
objects into a dict, skipping any object missing a property. -/
def get_weaviate_files (q : Option (List WObj)) : List (String × Int) :=
  match q with
  | none => []
  | some objs =>
      objs.foldl (fun d o =>
        match o.file_path, o.updated_at with
        | some p, some t => dinsert d p t
        | _, _ => d) []

/-- Change detector, new files (sync.py line 114):
`filesystem_files.keys() - weaviate_files.keys()`. -/
def newFiles (F I : List (String × Int)) : List String :=
  (akeys F).filter (fun p => decide (p ∉ akeys I))

/-- Change detector, modified files (sync.py lines 117–120): paths in both
key sets whose filesystem timestamp is strictly newer. -/
def modifiedFiles (F I : List (String × Int)) : List String :=
  ((akeys F).filter (fun p => decide (p ∈ akeys I))).filter (fun p =>
    match alookup p F, alookup p I with
    | some a, some b => decide (b < a)
    | _, _ => false)

/-- Change detector, deleted files (sync.py line 123):
`weaviate_files.keys() - filesystem_files.keys()`. -/
def deletedFiles (F I : List (String × Int)) : List String :=
  (akeys I).filter (fun p => decide (p ∉ akeys F))

/-- The `new_files` loop of `sync_notes` (lines 133–141): index each path,
counting successes and failures. -/
def processNew (fs : FS) (s : Store) (cnt fail : Nat) :
    List String → Store × Nat × Nat
  | [] => (s, cnt, fail)
  | p :: rest =>
      if (index_file fs s p).2 then
        processNew fs (index_file fs s p).1 (cnt + 1) fail rest
      else processNew fs (index_file fs s p).1 cnt (fail + 1) rest

/-- The `modified_files` loop of `sync_notes` (lines 143–152). -/
def processModified (fs : FS) (s : Store) (cnt fail : Nat) :
    List String → Store × Nat × Nat
  | [] => (s, cnt, fail)
  | p :: rest =>
      if (update_file fs s p).2 then
        processModified fs (update_file fs s p).1 (cnt + 1) fail rest
      else processModified fs (update_file fs s p).1 cnt (fail + 1) rest

/-- The `deleted_files` loop of `sync_notes` (lines 154–163). -/
def processDeleted (s : Store) (cnt fail : Nat) :
    List String → Store × Nat × Nat
  | [] => (s, cnt, fail)
  | p :: rest =>
      if (delete_file s p).2 then
        processDeleted (delete_file s p).1 (cnt + 1) fail rest
      else processDeleted (delete_file s p).1 cnt (fail + 1) rest

/-- The statistics dictionary returned by `sync_notes` (sync.py
lines 169–182; the failure dictionary of line 186 carries `success=False`
and an error message). -/
structure SyncResult where
  success : Bool
  error : Option String
  filesystem_files : Nat
  weaviate_files : Nat
  new_files : Nat
  modified_files : Nat
  deleted_files : Nat
  indexed_count : Nat
  indexed_failed : Nat
  modified_count : Nat
  modified_failed : Nat
  deleted_count : Nat
  deleted_failed : Nat
  deriving DecidableEq, Repr

/-- `sync_notes` (sync.py lines 90–186): take both snapshots, compute the
three-way diff, process new, then modified, then deleted files, and return
the statistics.  Both snapshot helpers catch their own exceptions and
return `{}` (so the `except` of lines 184–186 is unreachable for scan
failures and the returned `success` flag is `true`). -/
def sync_notes (scanOk queryOk : Bool) (fs : FS) (s : Store) :
    Store × SyncResult :=
  let filesystem_files := get_filesystem_files scanOk fs
  let weaviate_files := get_weaviate_files (storeQuery s queryOk)
  let nf := newFiles filesystem_files weaviate_files
  let mf := modifiedFiles filesystem_files weaviate_files
  let df := deletedFiles filesystem_files weaviate_files
  let rNew := processNew fs s 0 0 nf
  let rMod := processModified fs rNew.1 0 0 mf
  let rDel := processDeleted rMod.1 0 0 df
  (rDel.1,
   { success := true, error := none,
     filesystem_files := filesystem_files.length,
     weaviate_files := weaviate_files.length,
     new_files := nf.length,
     modified_files := mf.length,
     deleted_files := df.length,
     indexed_count := rNew.2.1, indexed_failed := rNew.2.2,
     modified_count := rMod.2.1, modified_failed := rMod.2.2,
     deleted_count := rDel.2.1, deleted_failed := rDel.2.2 })

/-! ## Live watcher (`src/watcher/file_watcher.py`) -/

/-- Split a character list at '/' separators (structural recursion, so it
evaluates inside the kernel; `String.splitOn` is defined by well-founded
recursion and does not). -/
def pathComponents : List Char → List (List Char)
  | [] => [[]]
  | c :: rest =>
      match pathComponents rest with
      | [] => [[]]
      | comp :: comps =>
          if c = '/' then [] :: comp :: comps
          else (c :: comp) :: comps

/-- Model of `pathlib.Path(p).name`: the last path component ('/' as the
separator; pathlib also collapses repeated and trailing separators, hence
the filter dropping empty components). -/
def pathName (p : String) : List Char :=
  match ((pathComponents p.data).filter (fun c => ¬ c = [])).getLast? with
  | some c => c
  | none => []

/-- Model of `pathlib.Path(p).suffix` on a file name: the substring from
the last dot, provided that dot is neither the leading character (hidden
file) nor the final character. -/
def suffixOf (name : List Char) : List Char :=
  match ((name.enum.filter (fun ia => ia.2 = '.')).map (fun ia => ia.1)).getLast? with
  | some i => if 0 < i ∧ i < name.length - 1 then name.drop i else []
  | none => []

/-- The temporary-suffix check of `should_process_event` (file_watcher.py
lines 57–60): `any(path.name.endswith(ext) for ext in temp_extensions)`. -/
def tempSuffixCheck (name : List Char) : Bool :=
  [".tmp", ".swp", ".temp"].any (fun e => e.data.isSuffixOf name)

/-- `FileWatcherHandler.should_process_event` (file_watcher.py
lines 33–66): reject directory events, non-`.md` extensions
(case-insensitive), hidden files, temporary suffixes, and names starting
or ending with a tilde. -/
def should_process_event (isDir : Bool) (srcPath : String) : Bool :=
  if isDir then false
  else
    let name := pathName srcPath
    if ¬ (suffixOf name).map Char.toLower = ".md".data then false
    else if name.head? = some '.' then false
    else if tempSuffixCheck name then false
    else if name.head? = some '~' ∨ name.getLast? = some '~' then false
    else true

/-- A watchdog file event as the handlers see it. -/
structure FsEvent where
  is_directory : Bool
  src_path : String
  deriving DecidableEq, Repr

/-- A watchdog move event (`src_path` and `dest_path`). -/
structure MoveEvent where
  is_directory : Bool
  src_path : String
  dest_path : String
  deriving DecidableEq, Repr

/-- `FileWatcherHandler.on_created` (file_watcher.py lines 68–87): filter,
then index the file.  The returned flag records whether the event passed
the filter and was dispatched to the store operation. -/
def on_created (fs : FS) (s : Store) (e : FsEvent) : Store × Bool :=
  if should_process_event e.is_directory e.src_path then
    ((index_file fs s e.src_path).1, true)
  else (s, false)

/-- `FileWatcherHandler.on_modified` (file_watcher.py lines 89–108). -/
def on_modified (fs : FS) (s : Store) (e : FsEvent) : Store × Bool :=
  if should_process_event e.is_directory e.src_path then
    ((update_file fs s e.src_path).1, true)
  else (s, false)

/-- `FileWatcherHandler.on_moved` (file_watcher.py lines 110–133): the
eligibility filter is applied to the event, whose `src_path` is the move's
source path; if it passes, `move_file(old, new)` runs. -/
def on_moved (s : Store) (e : MoveEvent) : Store × Bool :=
  if should_process_event e.is_directory e.src_path then
    ((move_file s e.src_path e.dest_path).1, true)
  else (s, false)

/-- `FileWatcherHandler.on_deleted` (file_watcher.py lines 135–156). -/
def on_deleted (s : Store) (e : FsEvent) : Store × Bool :=
  if should_process_event e.is_directory e.src_path then
    ((delete_file s e.src_path).1, true)
  else (s, false)

/-- One operation against the store: a live event (each carrying the
filesystem state at the moment it is handled) or a reconciliation pass. -/
inductive Op where
  | created (fs : FS) (e : FsEvent)
  | modified (fs : FS) (e : FsEvent)
  | deleted (e : FsEvent)
  | moved (e : MoveEvent)
  | reconcile (scanOk queryOk : Bool) (fs : FS)
  deriving Repr

/-- Apply one operation to the store. -/
def applyOp (s : Store) : Op → Store
  | .created fs e => (on_created fs s e).1
  | .modified fs e => (on_modified fs s e).1
  | .deleted e => (on_deleted s e).1
  | .moved e => (on_moved s e).1
  | .reconcile sk qk fs => (sync_notes sk qk fs s).1

/-- Apply a sequence of operations in order. -/
def applyOps (s : Store) : List Op → Store
  | [] => s
  | op :: rest => applyOps (applyOp s op) rest

/-! ## Spec-side definitions used by refinement and amended claims -/

/-- The four-check eligibility filter as the claim words it: not a
directory event, extension `.md` case-insensitively, no leading dot, no
leading or trailing tilde.  This is the refinement target compared with
`should_process_event`. -/
def eligibleFourChecks (isDir : Bool) (srcPath : String) : Bool :=
  let name := pathName srcPath
  !isDir
    && decide ((suffixOf name).map Char.toLower = ".md".data)
    && !(decide (name.head? = some '.'))
    && !(decide (name.head? = some '~' ∨ name.getLast? = some '~'))

/-- Side conditions under which one operation preserves path uniqueness:
a processed create must target a path with no existing record, a processed
move must not land on a path another record holds, and a reconciliation
pass whose filesystem scan succeeds must also have a successful store
query and a store within the 10000-object fetch limit. -/
def SafeOp (s : Store) : Op → Prop
  | .created _ e => should_process_event e.is_directory e.src_path = true →
      findByPath s e.src_path = none
  | .modified _ _ => True
  | .deleted _ => True
  | .moved e => should_process_event e.is_directory e.src_path = true →
      (e.dest_path = e.src_path ∨ findByPath s e.dest_path = none)
  | .reconcile sk qk _ => sk = true →
      (qk = true ∧ s.records.length ≤ 10000)

/-- Every operation of the sequence is safe in the state it executes in. -/
def SafeSeq (s : Store) : List Op → Prop
  | [] => True
  | op :: rest => SafeOp s op ∧ SafeSeq (applyOp s op) rest

/-! ## Dictionary lemmas -/

theorem mem_akeys {α : Type} {l : List (String × α)} {k : String} :
    k ∈ akeys l ↔ ∃ v, (k, v) ∈ l := by
  simp only [akeys, List.mem_map, Prod.exists]
  constructor
  · rintro ⟨a, b, h, rfl⟩
    exact ⟨b, h⟩
  · rintro ⟨v, h⟩
    exact ⟨k, v, h, rfl⟩

theorem akeys_nil {α : Type} : akeys ([] : List (String × α)) = [] := rfl

theorem akeys_cons {α : Type} (kv : String × α) (rest : List (String × α)) :
    akeys (kv :: rest) = kv.1 :: akeys rest := rfl

theorem akeys_append {α : Type} (l1 l2 : List (String × α)) :
    akeys (l1 ++ l2) = akeys l1 ++ akeys l2 := by
  simp [akeys]

theorem alookup_eq_none {α : Type} {l : List (String × α)} {k : String} :
    alookup k l = none ↔ k ∉ akeys l := by
  induction l with
  | nil => simp [alookup, akeys]
  | cons kv rest ih =>
      by_cases h : kv.1 = k
      · subst h
        simp [alookup, akeys_cons]
      · rw [akeys_cons]
        simp only [alookup, if_neg h, ih, List.mem_cons]
        constructor
        · intro hn hm
          rcases hm with hm | hm
          · exact h hm.symm
          · exact hn hm
        · intro hn hm
          exact hn (Or.inr hm)

theorem alookup_isSome {α : Type} {l : List (String × α)} {k : String} :
    (alookup k l).isSome = true ↔ k ∈ akeys l := by
  rw [Option.isSome_iff_ne_none]
  constructor
  · intro h
    by_contra hk
    exact h (alookup_eq_none.mpr hk)
  · intro h hn
    exact alookup_eq_none.mp hn h

theorem alookup_mem {α : Type} {l : List (String × α)} {k : String} {v : α}
    (h : alookup k l = some v) : (k, v) ∈ l := by
  induction l with
  | nil => simp [alookup] at h
  | cons kv rest ih =>
      by_cases hk : kv.1 = k
      · simp only [alookup, if_pos hk] at h
        cases h
        subst hk
        exact List.mem_cons_self _ _
      · simp only [alookup, if_neg hk] at h
        exact List.mem_cons_of_mem _ (ih h)

theorem alookup_of_mem_nodup {α : Type} {l : List (String × α)} {k : String}
    {v : α} (hn : (akeys l).Nodup) (h : (k, v) ∈ l) : alookup k l = some v := by
  induction l with
  | nil => simp at h
  | cons kv rest ih =>
      simp only [akeys, List.map_cons, List.nodup_cons] at hn
      rcases List.mem_cons.mp h with h1 | h1
      · subst h1
        simp [alookup]
      · have hne : kv.1 ≠ k := by
          intro he
          exact hn.1 (he ▸ (mem_akeys.mpr ⟨v, h1⟩))
        simp only [alookup, if_neg hne]
        exact ih hn.2 h1

theorem akeys_dinsert {α : Type} (d : List (String × α)) (k : String) (v : α) :
    akeys (dinsert d k v) = if k ∈ akeys d then akeys d else akeys d ++ [k] := by
  unfold dinsert
  by_cases h : k ∈ akeys d
  · rw [if_pos h, if_pos h]
    unfold akeys
    rw [List.map_map]
    apply List.map_congr_left
    intro kv _
    by_cases hk : kv.1 = k
    · simp [hk]
    · simp [hk]
  · rw [if_neg h, if_neg h, akeys_append]
    rfl

theorem mem_akeys_dinsert {α : Type} {d : List (String × α)} {k a : String}
    {v : α} : a ∈ akeys (dinsert d k v) ↔ a ∈ akeys d ∨ a = k := by
  rw [akeys_dinsert]
  by_cases h : k ∈ akeys d
  · rw [if_pos h]
    constructor
    · exact Or.inl
    · rintro (ha | rfl)
      · exact ha
      · exact h
  · rw [if_neg h]
    simp

theorem nodup_akeys_dinsert {α : Type} {d : List (String × α)} {k : String}
    {v : α} (h : (akeys d).Nodup) : (akeys (dinsert d k v)).Nodup := by
  rw [akeys_dinsert]
  by_cases hm : k ∈ akeys d
  · rwa [if_pos hm]
  · rw [if_neg hm]
    simp [List.nodup_append, h, hm]

theorem alookup_append_single_ne {α : Type} {d : List (String × α)}
    {k a : String} {v : α} (h : a ≠ k) :
    alookup a (d ++ [(k, v)]) = alookup a d := by
  induction d with
  | nil =>
      have hka : ¬ k = a := fun he => h he.symm
      simp [alookup, hka]
  | cons kv rest ih =>
      simp only [List.cons_append, alookup]
      by_cases ha : kv.1 = a
      · rw [if_pos ha, if_pos ha]
      · rw [if_neg ha, if_neg ha]
        exact ih

theorem alookup_map_overwrite_ne {α : Type} {d : List (String × α)}
    {k a : String} {v : α} (h : a ≠ k) :
    alookup a (d.map (fun kv => if kv.1 = k then (k, v) else kv)) =
      alookup a d := by
  induction d with
  | nil => simp [alookup]
  | cons kv rest ih =>
      by_cases hk : kv.1 = k
      · have hka : ¬ k = a := fun he => h he.symm
        have hkva : ¬ kv.1 = a := by
          rw [hk]
          exact hka
        simp only [List.map_cons, if_pos hk, alookup, if_neg hka, if_neg hkva]
        exact ih
      · simp only [List.map_cons, if_neg hk, alookup]
        by_cases ha : kv.1 = a
        · rw [if_pos ha, if_pos ha]
        · rw [if_neg ha, if_neg ha]
          exact ih

theorem alookup_dinsert_self {α : Type} (d : List (String × α)) (k : String)
    (v : α) : alookup k (dinsert d k v) = some v := by
  unfold dinsert
  by_cases h : k ∈ akeys d
  · rw [if_pos h]
    induction d with
    | nil => simp [akeys] at h
    | cons kv rest ih =>
        by_cases hk : kv.1 = k
        · simp [alookup, hk]
        · rw [akeys_cons, List.mem_cons] at h
          rcases h with h | h
          · exact absurd h.symm hk
          · simp only [List.map_cons, if_neg hk, alookup, if_neg hk]
            exact ih h
  · rw [if_neg h]
    induction d with
    | nil => simp [alookup]
    | cons kv rest ih =>
        rw [akeys_cons, List.mem_cons] at h
        push_neg at h
        have hk : kv.1 ≠ k := fun he => h.1 he.symm
        simp only [List.cons_append, alookup, if_neg hk]
        exact ih h.2

theorem alookup_dinsert_ne {α : Type} {d : List (String × α)} {k a : String}
    {v : α} (h : a ≠ k) : alookup a (dinsert d k v) = alookup a d := by
  unfold dinsert
  by_cases hm : k ∈ akeys d
  · rw [if_pos hm]
    exact alookup_map_overwrite_ne h
  · rw [if_neg hm]
    exact alookup_append_single_ne h

theorem mem_akeys_foldl_dinsert {α : Type} (l : List (String × α)) :
    ∀ (d : List (String × α)) (a : String),
      a ∈ akeys (l.foldl (fun d kv => dinsert d kv.1 kv.2) d) ↔
        a ∈ akeys d ∨ a ∈ akeys l := by
  induction l with
  | nil =>
      intro d a
      simp [akeys_nil]
  | cons kv rest ih =>
      intro d a
      simp only [List.foldl_cons]
      rw [ih, mem_akeys_dinsert, akeys_cons, List.mem_cons]
      tauto

theorem nodup_akeys_foldl_dinsert {α : Type} (l : List (String × α)) :
    ∀ d : List (String × α), (akeys d).Nodup →
      (akeys (l.foldl (fun d kv => dinsert d kv.1 kv.2) d)).Nodup := by
  induction l with
  | nil =>
      intro d h
      exact h
  | cons kv rest ih =>
      intro d h
      exact ih _ (nodup_akeys_dinsert h)

theorem mem_akeys_buildDict {α : Type} {l : List (String × α)} {a : String} :
    a ∈ akeys (buildDict l) ↔ a ∈ akeys l := by
  unfold buildDict
  rw [mem_akeys_foldl_dinsert]
  simp [akeys_nil]

theorem nodup_akeys_buildDict {α : Type} (l : List (String × α)) :
    (akeys (buildDict l)).Nodup := by
  unfold buildDict
  exact nodup_akeys_foldl_dinsert l [] (by simp [akeys_nil])

theorem foldl_dinsert_eq_append {α : Type} (l : List (String × α)) :
    ∀ d : List (String × α), (akeys d ++ akeys l).Nodup →
      l.foldl (fun d kv => dinsert d kv.1 kv.2) d = d ++ l := by
  induction l with
  | nil =>
      intro d _
      simp
  | cons kv rest ih =>
      intro d h
      have hsplit : (akeys d ++ akeys (kv :: rest)).Nodup := h
      rw [akeys_cons] at hsplit
      have hdisj : kv.1 ∉ akeys d := by
        rcases List.nodup_append.mp hsplit with ⟨_, _, hd⟩
        intro hmem
        exact hd hmem (List.mem_cons_self _ _)
      have hstep : dinsert d kv.1 kv.2 = d ++ [kv] := by
        unfold dinsert
        rw [if_neg hdisj]
      simp only [List.foldl_cons, hstep]
      have hre : (akeys (d ++ [kv]) ++ akeys rest).Nodup := by
        rw [akeys_append]
        have : akeys d ++ akeys [kv] ++ akeys rest =
            akeys d ++ (kv.1 :: akeys rest) := by
          simp [akeys]
        rw [this]
        exact hsplit
      rw [ih _ hre, List.append_assoc]
      rfl

theorem buildDict_eq_self {α : Type} {l : List (String × α)}
    (h : (akeys l).Nodup) : buildDict l = l := by
  unfold buildDict
  have := foldl_dinsert_eq_append l [] (by simpa [akeys_nil] using h)
  simpa using this

/-! ## Snapshot lemmas -/

theorem get_filesystem_files_eq (fs : FS) :
    get_filesystem_files true fs =
      buildDict (fs.map (fun pf => (pf.1, pf.2.mtime))) := by
  unfold get_filesystem_files buildDict
  rw [if_pos rfl, List.foldl_map]

theorem get_weaviate_files_eq (s : Store) :
    get_weaviate_files (storeQuery s true) =
      buildDict ((s.records.take 10000).map
        (fun r => (r.file_path, r.updated_at))) := by
  unfold get_weaviate_files storeQuery buildDict
  rw [if_pos rfl]
  dsimp only
  rw [List.foldl_map, List.foldl_map]

/-! ## Change detector lemmas -/

theorem mem_newFiles {F I : List (String × Int)} {p : String} :
    p ∈ newFiles F I ↔ p ∈ akeys F ∧ p ∉ akeys I := by
  simp [newFiles, List.mem_filter]

theorem mem_deletedFiles {F I : List (String × Int)} {p : String} :
    p ∈ deletedFiles F I ↔ p ∈ akeys I ∧ p ∉ akeys F := by
  simp [deletedFiles, List.mem_filter]

theorem mem_modifiedFiles {F I : List (String × Int)} {p : String} :
    p ∈ modifiedFiles F I ↔
      p ∈ akeys F ∧ p ∈ akeys I ∧
        ∃ a b, alookup p F = some a ∧ alookup p I = some b ∧ b < a := by
  simp only [modifiedFiles, List.mem_filter, decide_eq_true_eq]
  constructor
  · rintro ⟨⟨hF, hI⟩, hcmp⟩
    refine ⟨hF, hI, ?_⟩
    rcases hFa : alookup p F with _ | a
    · rw [hFa] at hcmp
      simp at hcmp
    · rcases hIb : alookup p I with _ | b
      · rw [hFa, hIb] at hcmp
        simp at hcmp
      · rw [hFa, hIb] at hcmp
        exact ⟨a, b, rfl, rfl, by simpa using hcmp⟩
  · rintro ⟨hF, hI, a, b, hFa, hIb, hab⟩
    refine ⟨⟨hF, hI⟩, ?_⟩
    rw [hFa, hIb]
    simpa using hab

/-! ## Store operation lemmas -/

theorem findByPath_eq_none {s : Store} {p : String} :
    findByPath s p = none ↔ ∀ r ∈ s.records, r.file_path ≠ p := by
  simp [findByPath, List.find?_eq_none]

theorem findByPath_some {s : Store} {p : String} {r : IndexedNote}
    (h : findByPath s p = some r) : r ∈ s.records ∧ r.file_path = p := by
  refine ⟨List.mem_of_find?_eq_some h, ?_⟩
  have := List.find?_some h
  simpa using this

theorem findByPath_mem_paths {s : Store} {p : String} (h : p ∈ paths s) :
    ∃ r, findByPath s p = some r := by
  rcases Option.eq_none_or_eq_some (findByPath s p) with hn | hs
  · rcases List.mem_map.mp h with ⟨r, hr, hp⟩
    exact absurd hp (findByPath_eq_none.mp hn r hr)
  · exact hs

theorem index_file_records (fs : FS) (s : Store) (p : String) :
    (index_file fs s p).1.records = s.records ∨
      ∃ d, parse_md_file fs p = some d ∧
        (index_file fs s p).1.records = s.records ++
          [{ id := s.nextId, file_path := d.file_path, title := d.title,
             content := d.content, tags := d.tags,
             created_at := d.created_at, updated_at := d.updated_at }] := by
  unfold index_file
  rcases h : parse_md_file fs p with _ | d
  · exact Or.inl rfl
  · exact Or.inr ⟨d, rfl, rfl⟩

theorem WF_index_file {fs : FS} {s : Store} {p : String} (h : WF s) :
    WF (index_file fs s p).1 := by
  unfold index_file
  rcases hp : parse_md_file fs p with _ | d
  · exact h
  · dsimp only
    constructor
    · rw [List.map_append]
      rw [List.nodup_append]
      refine ⟨h.1, by simp, ?_⟩
      intro a ha
      simp only [List.map_cons, List.map_nil, List.mem_cons, List.not_mem_nil,
        or_false]
      rcases List.mem_map.mp ha with ⟨r, hr, rfl⟩
      intro he
      exact absurd (he ▸ h.2 r hr) (lt_irrefl _)
    · intro r hr
      rcases List.mem_append.mp hr with hr | hr
      · exact Nat.lt_succ_of_lt (h.2 r hr)
      · simp at hr
        rw [hr]
        exact Nat.lt_succ_self _

theorem ids_update_file (fs : FS) (s : Store) (p : String) :
    (update_file fs s p).1.records.map (fun r => r.id) =
      s.records.map (fun r => r.id) ∧ (update_file fs s p).1.nextId = s.nextId := by
  unfold update_file
  rcases findByPath s p with _ | r
  · exact ⟨rfl, rfl⟩
  · rcases parse_md_file fs p with _ | d
    · exact ⟨rfl, rfl⟩
    · refine ⟨?_, rfl⟩
      rw [List.map_map]
      apply List.map_congr_left
      intro q _
      by_cases hq : q.id = r.id
      · simp [hq]
      · simp [hq]

theorem ids_move_file (s : Store) (a b : String) :
    (move_file s a b).1.records.map (fun r => r.id) =
      s.records.map (fun r => r.id) ∧ (move_file s a b).1.nextId = s.nextId := by
  unfold move_file
  rcases findByPath s a with _ | r
  · exact ⟨rfl, rfl⟩
  · refine ⟨?_, rfl⟩
    rw [List.map_map]
    apply List.map_congr_left
    intro q _
    by_cases hq : q.id = r.id
    · simp [hq]
    · simp [hq]

theorem WF_update_file {fs : FS} {s : Store} {p : String} (h : WF s) :
    WF (update_file fs s p).1 := by
  have hm := ids_update_file fs s p
  constructor
  · rw [hm.1]
    exact h.1
  · intro r hr
    have : r.id ∈ (update_file fs s p).1.records.map (fun r => r.id) :=
      List.mem_map_of_mem _ hr
    rw [hm.1] at this
    rcases List.mem_map.mp this with ⟨q, hq, hid⟩
    rw [hm.2, ← hid]
    exact h.2 q hq

theorem WF_move_file {s : Store} {a b : String} (h : WF s) :
    WF (move_file s a b).1 := by
  have hm := ids_move_file s a b
  constructor
  · rw [hm.1]
    exact h.1
  · intro r hr
    have : r.id ∈ (move_file s a b).1.records.map (fun r => r.id) :=
      List.mem_map_of_mem _ hr
    rw [hm.1] at this
    rcases List.mem_map.mp this with ⟨q, hq, hid⟩
    rw [hm.2, ← hid]
    exact h.2 q hq

theorem delete_file_records (s : Store) (p : String) :
    ((delete_file s p).1.records.Sublist s.records) ∧
      (delete_file s p).1.nextId = s.nextId := by
  unfold delete_file
  rcases findByPath s p with _ | r
  · exact ⟨List.Sublist.refl _, rfl⟩
  · exact ⟨List.filter_sublist _, rfl⟩

theorem WF_delete_file {s : Store} {p : String} (h : WF s) :
    WF (delete_file s p).1 := by
  have hm := delete_file_records s p
  constructor
  · exact List.Nodup.sublist (List.Sublist.map _ hm.1) h.1
  · intro r hr
    rw [hm.2]
    exact h.2 r (hm.1.subset hr)

theorem map_filter_comm {α β : Type} (f : α → β) (q : β → Bool) (l : List α) :
    (l.filter (fun a => q (f a))).map f = (l.map f).filter q := by
  induction l with
  | nil => simp
  | cons a rest ih =>
      by_cases h : q (f a) = true
      · simp [List.filter_cons, h, ih]
      · simp only [Bool.not_eq_true] at h
        simp [List.filter_cons, h, ih]

theorem id_eq_iff_eq {s : Store} {r : IndexedNote} (hWF : WF s)
    (hr : r ∈ s.records) : ∀ q ∈ s.records, (q.id = r.id ↔ q = r) := by
  intro q hq
  constructor
  · intro h
    exact List.inj_on_of_nodup_map hWF.1 hq hr h
  · intro h
    rw [h]

theorem path_eq_iff_eq {s : Store} {r : IndexedNote} (hU : uniquePaths s)
    (hr : r ∈ s.records) : ∀ q ∈ s.records, (q.file_path = r.file_path ↔ q = r) := by
  intro q hq
  constructor
  · intro h
    exact List.inj_on_of_nodup_map hU hq hr h
  · intro h
    rw [h]

theorem parse_md_file_isSome {fs : FS} {p : String} :
    (parse_md_file fs p).isSome = true ↔ p ∈ akeys fs := by
  unfold parse_md_file
  rw [← alookup_isSome (l := fs) (k := p)]
  rcases alookup p fs with _ | fd <;> simp

theorem parse_md_file_eq_some {fs : FS} {p : String} {d : Parsed} :
    parse_md_file fs p = some d ↔
      ∃ fd, alookup p fs = some fd ∧
        d = { title := fd.title, tags := fd.tags, content := fd.content,
              file_path := p, created_at := fd.ctime, updated_at := fd.mtime } := by
  unfold parse_md_file
  rcases h : alookup p fs with _ | fd
  · simp
  · simp only [Option.map_some', Option.some_inj]
    constructor
    · intro hd
      exact ⟨fd, rfl, hd.symm⟩
    · rintro ⟨fd2, hfd2, rfl⟩
      cases hfd2
      rfl

theorem sig_index_file {fs : FS} {s : Store} {p : String} {d : Parsed}
    (hparse : parse_md_file fs p = some d) :
    sig (index_file fs s p).1 = sig s ++ [(p, d.updated_at)] ∧
      (index_file fs s p).2 = true := by
  have hp : d.file_path = p := by
    rcases parse_md_file_eq_some.mp hparse with ⟨fd, _, rfl⟩
    rfl
  unfold index_file
  rw [hparse]
  refine ⟨?_, rfl⟩
  unfold sig
  rw [List.map_append]
  simp [hp]

theorem index_file_fail {fs : FS} {s : Store} {p : String}
    (hparse : parse_md_file fs p = none) :
    index_file fs s p = (s, false) := by
  unfold index_file
  rw [hparse]

theorem paths_update_file (fs : FS) (s : Store) (p : String) :
    paths (update_file fs s p).1 = paths s := by
  unfold update_file
  rcases findByPath s p with _ | r
  · rfl
  · rcases parse_md_file fs p with _ | d
    · rfl
    · unfold paths
      rw [List.map_map]
      apply List.map_congr_left
      intro q _
      by_cases hq : q.id = r.id
      · simp [hq]
      · simp [hq]

theorem sig_update_file {fs : FS} {s : Store} {p : String} {r : IndexedNote}
    {d : Parsed} (hWF : WF s) (hU : uniquePaths s)
    (hfind : findByPath s p = some r) (hparse : parse_md_file fs p = some d) :
    sig (update_file fs s p).1 =
      (sig s).map (fun kv => if kv.1 = p then (p, d.updated_at) else kv) ∧
      (update_file fs s p).2 = true := by
  have hrmem := (findByPath_some hfind).1
  have hrp := (findByPath_some hfind).2
  unfold update_file
  rw [hfind, hparse]
  refine ⟨?_, rfl⟩
  unfold sig
  rw [List.map_map, List.map_map]
  apply List.map_congr_left
  intro q hq
  by_cases hid : q.id = r.id
  · have hqr : q = r := (id_eq_iff_eq hWF hrmem q hq).mp hid
    have hqp : q.file_path = p := hqr ▸ hrp
    simp [hid, hqp]
  · have hqr : q ≠ r := fun he => hid (he ▸ rfl)
    have hqp : q.file_path ≠ p := by
      intro he
      exact hqr ((path_eq_iff_eq hU hrmem q hq).mp (he.trans hrp.symm))
    simp [hid, hqp]

theorem update_file_fail_none {fs : FS} {s : Store} {p : String}
    (hfind : findByPath s p = none) : update_file fs s p = (s, false) := by
  unfold update_file
  rw [hfind]

theorem records_delete_file {s : Store} {p : String} (hWF : WF s)
    (hU : uniquePaths s) :
    (delete_file s p).1.records =
      s.records.filter (fun q => q.file_path ≠ p) := by
  unfold delete_file
  rcases hfind : findByPath s p with _ | r
  · have := findByPath_eq_none.mp hfind
    dsimp only
    rw [eq_comm]
    apply List.filter_eq_self.mpr
    intro q hq
    simpa using this q hq
  · have hrmem := (findByPath_some hfind).1
    have hrp := (findByPath_some hfind).2
    dsimp only
    apply List.filter_congr
    intro q hq
    by_cases hid : q.id = r.id
    · have hqr : q = r := (id_eq_iff_eq hWF hrmem q hq).mp hid
      have hqp : q.file_path = p := hqr ▸ hrp
      simp [hid, hqp]
    · have hqr : q ≠ r := fun he => hid (he ▸ rfl)
      have hqp : q.file_path ≠ p := by
        intro he
        exact hqr ((path_eq_iff_eq hU hrmem q hq).mp (he.trans hrp.symm))
      simp [hid, hqp]

theorem sig_delete_file {s : Store} {p : String} (hWF : WF s)
    (hU : uniquePaths s) :
    sig (delete_file s p).1 = (sig s).filter (fun kv => kv.1 ≠ p) := by
  unfold sig
  rw [records_delete_file hWF hU]
  have := map_filter_comm (fun r : IndexedNote => (r.file_path, r.updated_at))
    (fun kv => kv.1 ≠ p) s.records
  rw [← this]

/-! ## Loop lemmas for `sync_notes` -/

theorem paths_eq_akeys_sig (s : Store) : paths s = akeys (sig s) := by
  unfold paths sig akeys
  rw [List.map_map]
  rfl

theorem uniquePaths_delete_file {s : Store} {p : String} (hWF : WF s)
    (hU : uniquePaths s) : uniquePaths (delete_file s p).1 := by
  unfold uniquePaths
  unfold uniquePaths at hU
  have h := records_delete_file (p := p) hWF hU
  unfold paths
  rw [h]
  exact List.Nodup.sublist (List.Sublist.map _ (List.filter_sublist _)) hU

theorem uniquePaths_update_file {fs : FS} {s : Store} {p : String}
    (hU : uniquePaths s) : uniquePaths (update_file fs s p).1 := by
  unfold uniquePaths
  rw [paths_update_file]
  exact hU

/-- Auxiliary description of what the modified-files loop does to one
(path, updated_at) pair: paths in the processed list get the file's mtime. -/
def updSig (fs : FS) (ps : List String) (kv : String × Int) : String × Int :=
  if decide (kv.1 ∈ ps) then
    match alookup kv.1 fs with
    | some fd => (kv.1, fd.mtime)
    | none => kv
  else kv

theorem sig_processNew (fs : FS) :
    ∀ (ps : List String) (s : Store) (cnt fail : Nat),
      sig (processNew fs s cnt fail ps).1 =
        sig s ++ ps.filterMap
          (fun p => (alookup p fs).map (fun fd => (p, fd.mtime))) := by
  intro ps
  induction ps with
  | nil =>
      intro s cnt fail
      simp [processNew]
  | cons p rest ih =>
      intro s cnt fail
      rcases halk : alookup p fs with _ | fd
      · have hparse : parse_md_file fs p = none := by
          unfold parse_md_file
          rw [halk]
          rfl
        have hidx := index_file_fail (s := s) hparse
        unfold processNew
        rw [hidx]
        simp only [List.filterMap_cons, halk, Option.map_none']
        exact ih s cnt (fail + 1)
      · have hparse : parse_md_file fs p = some
            { title := fd.title, tags := fd.tags, content := fd.content,
              file_path := p, created_at := fd.ctime, updated_at := fd.mtime } := by
          unfold parse_md_file
          rw [halk]
          rfl
        have hsig := sig_index_file (s := s) hparse
        unfold processNew
        rw [hsig.2, if_pos rfl]
        rw [ih _ (cnt + 1) fail, hsig.1]
        simp [halk]

theorem WF_processNew {fs : FS} :
    ∀ (ps : List String) (s : Store) (cnt fail : Nat), WF s →
      WF (processNew fs s cnt fail ps).1 := by
  intro ps
  induction ps with
  | nil =>
      intro s cnt fail h
      exact h
  | cons p rest ih =>
      intro s cnt fail h
      unfold processNew
      rcases hb : (index_file fs s p).2 with _ | _
      · rw [if_neg (by simp)]
        exact ih _ _ _ (WF_index_file h)
      · rw [if_pos rfl]
        exact ih _ _ _ (WF_index_file h)

theorem sig_processModified (fs : FS) :
    ∀ (ps : List String) (s : Store) (cnt fail : Nat), WF s → uniquePaths s →
      (∀ p ∈ ps, p ∈ paths s ∧ p ∈ akeys fs) → ps.Nodup →
      sig (processModified fs s cnt fail ps).1 =
        (sig s).map (updSig fs ps) ∧
      WF (processModified fs s cnt fail ps).1 ∧
      uniquePaths (processModified fs s cnt fail ps).1 := by
  intro ps
  induction ps with
  | nil =>
      intro s cnt fail hWF hU _ _
      refine ⟨?_, hWF, hU⟩
      unfold processModified updSig
      simp
  | cons p rest ih =>
      intro s cnt fail hWF hU hmem hnd
      have hp := hmem p (List.mem_cons_self _ _)
      rcases findByPath_mem_paths hp.1 with ⟨r, hfind⟩
      have hfd : ∃ fd, alookup p fs = some fd := by
        rcases hx : alookup p fs with _ | fd
        · exact absurd (alookup_isSome.mpr hp.2) (by rw [hx]; simp)
        · exact ⟨fd, rfl⟩
      rcases hfd with ⟨fd, halk⟩
      have hparse : parse_md_file fs p = some
          { title := fd.title, tags := fd.tags, content := fd.content,
            file_path := p, created_at := fd.ctime, updated_at := fd.mtime } := by
        unfold parse_md_file
        rw [halk]
        rfl
      have hupd := sig_update_file hWF hU hfind hparse
      unfold processModified
      rw [hupd.2, if_pos rfl]
      have hWF2 : WF (update_file fs s p).1 := WF_update_file hWF
      have hU2 : uniquePaths (update_file fs s p).1 := uniquePaths_update_file hU
      have hmem2 : ∀ q ∈ rest, q ∈ paths (update_file fs s p).1 ∧ q ∈ akeys fs := by
        intro q hq
        rw [paths_update_file]
        exact hmem q (List.mem_cons_of_mem _ hq)
      have hnd2 : rest.Nodup := (List.nodup_cons.mp hnd).2
      have hres := ih (update_file fs s p).1 (cnt + 1) fail hWF2 hU2 hmem2 hnd2
      refine ⟨?_, hres.2.1, hres.2.2⟩
      rw [hres.1, hupd.1, List.map_map]
      apply List.map_congr_left
      intro kv _
      simp only [Function.comp_apply]
      by_cases hkp : kv.1 = p
      · have hnp : p ∉ rest := (List.nodup_cons.mp hnd).1
        simp [updSig, hkp, hnp, halk]
      · by_cases hkr : kv.1 ∈ rest
        · simp [updSig, hkp, hkr]
        · simp [updSig, hkp, hkr]

theorem sig_processDeleted :
    ∀ (ps : List String) (s : Store) (cnt fail : Nat), WF s → uniquePaths s →
      sig (processDeleted s cnt fail ps).1 =
        (sig s).filter (fun kv => decide (kv.1 ∉ ps)) ∧
      WF (processDeleted s cnt fail ps).1 ∧
      uniquePaths (processDeleted s cnt fail ps).1 := by
  intro ps
  induction ps with
  | nil =>
      intro s cnt fail hWF hU
      refine ⟨?_, hWF, hU⟩
      unfold processDeleted
      simp
  | cons p rest ih =>
      intro s cnt fail hWF hU
      have hdel := sig_delete_file (p := p) hWF hU
      have hWF2 : WF (delete_file s p).1 := WF_delete_file hWF
      have hU2 : uniquePaths (delete_file s p).1 := uniquePaths_delete_file hWF hU
      unfold processDeleted
      rcases hb : (delete_file s p).2 with _ | _
      · rw [if_neg (by simp)]
        have hres := ih (delete_file s p).1 cnt (fail + 1) hWF2 hU2
        refine ⟨?_, hres.2.1, hres.2.2⟩
        rw [hres.1, hdel, List.filter_filter]
        apply List.filter_congr
        intro kv _
        simp only [List.mem_cons, decide_not, Bool.and_comm]
        by_cases h1 : kv.1 = p <;> by_cases h2 : kv.1 ∈ rest <;>
          simp [h1, h2]
      · rw [if_pos rfl]
        have hres := ih (delete_file s p).1 (cnt + 1) fail hWF2 hU2
        refine ⟨?_, hres.2.1, hres.2.2⟩
        rw [hres.1, hdel, List.filter_filter]
        apply List.filter_congr
        intro kv _
        simp only [List.mem_cons, decide_not, Bool.and_comm]
        by_cases h1 : kv.1 = p <;> by_cases h2 : kv.1 ∈ rest <;>
          simp [h1, h2]

/-! ## Reconciliation characterization -/

/-- The filesystem snapshot as raw pairs, before dict construction. -/
def fsDict (fs : FS) : List (String × Int) :=
  fs.map (fun pf => (pf.1, pf.2.mtime))

theorem akeys_fsDict (fs : FS) : akeys (fsDict fs) = akeys fs := by
  simp [akeys, fsDict]

theorem alookup_fsDict (fs : FS) (p : String) :
    alookup p (fsDict fs) = (alookup p fs).map (fun fd => fd.mtime) := by
  induction fs with
  | nil => rfl
  | cons kv rest ih =>
      by_cases h : kv.1 = p
      · simp [fsDict, alookup, h]
      · simp only [fsDict, List.map_cons, alookup, if_neg h]
        exact ih

theorem get_filesystem_files_self {fs : FS} (hfs : (akeys fs).Nodup) :
    get_filesystem_files true fs = fsDict fs := by
  rw [get_filesystem_files_eq]
  exact buildDict_eq_self (by rw [show (fs.map fun pf => (pf.1, pf.2.mtime)) = fsDict fs from rfl, akeys_fsDict]; exact hfs)

theorem get_weaviate_files_self {s : Store} (hU : uniquePaths s)
    (hlen : s.records.length ≤ 10000) :
    get_weaviate_files (storeQuery s true) = sig s := by
  rw [get_weaviate_files_eq, List.take_of_length_le hlen]
  exact buildDict_eq_self (by rw [show (s.records.map fun r => (r.file_path, r.updated_at)) = sig s from rfl, ← paths_eq_akeys_sig]; exact hU)

theorem akeys_filterMap_lookup (fs : FS) (ps : List String) :
    akeys (ps.filterMap (fun p => (alookup p fs).map (fun fd => (p, fd.mtime)))) =
      ps.filter (fun p => (alookup p fs).isSome) := by
  induction ps with
  | nil => rfl
  | cons p rest ih =>
      rcases h : alookup p fs with _ | fd
      · simp only [List.filterMap_cons, h, Option.map_none', List.filter_cons,
          Option.isSome_none]
        rw [ih]
        simp
      · simp only [List.filterMap_cons, h, Option.map_some', List.filter_cons,
          Option.isSome_some, akeys_cons]
        rw [ih]
        simp

theorem updSig_fst (fs : FS) (ps : List String) (kv : String × Int) :
    (updSig fs ps kv).1 = kv.1 := by
  unfold updSig
  by_cases h : kv.1 ∈ ps
  · rw [if_pos (by simpa using h)]
    rcases halk : alookup kv.1 fs with _ | fd
    · rfl
    · rfl
  · rw [if_neg (by simpa using h)]

theorem akeys_map_updSig (fs : FS) (ps : List String)
    (l : List (String × Int)) : akeys (l.map (updSig fs ps)) = akeys l := by
  unfold akeys
  rw [List.map_map]
  apply List.map_congr_left
  intro kv _
  exact updSig_fst fs ps kv

theorem akeys_filter_fst {α : Type} (q : String → Bool)
    (l : List (String × α)) :
    akeys (l.filter (fun kv => q kv.1)) = (akeys l).filter q := by
  unfold akeys
  exact map_filter_comm Prod.fst q l

/-- Paths of the store are unchanged by the modified-files loop. -/
theorem paths_processModified (fs : FS) :
    ∀ (ps : List String) (s : Store) (cnt fail : Nat),
      paths (processModified fs s cnt fail ps).1 = paths s := by
  intro ps
  induction ps with
  | nil =>
      intro s cnt fail
      rfl
  | cons p rest ih =>
      intro s cnt fail
      unfold processModified
      rcases hb : (update_file fs s p).2 with _ | _
      · rw [if_neg (by simp)]
        rw [ih, paths_update_file]
      · rw [if_pos rfl]
        rw [ih, paths_update_file]

/-- The deleted-files loop only removes records, so path uniqueness is
preserved unconditionally. -/
theorem sublist_processDeleted :
    ∀ (ps : List String) (s : Store) (cnt fail : Nat),
      (processDeleted s cnt fail ps).1.records.Sublist s.records := by
  intro ps
  induction ps with
  | nil =>
      intro s cnt fail
      exact List.Sublist.refl _
  | cons p rest ih =>
      intro s cnt fail
      unfold processDeleted
      rcases hb : (delete_file s p).2 with _ | _
      · rw [if_neg (by simp)]
        exact (ih _ _ _).trans (delete_file_records s p).1
      · rw [if_pos rfl]
        exact (ih _ _ _).trans (delete_file_records s p).1

theorem uniquePaths_processDeleted_any {ps : List String} {s : Store}
    {cnt fail : Nat} (hU : uniquePaths s) :
    uniquePaths (processDeleted s cnt fail ps).1 :=
  List.Nodup.sublist (List.Sublist.map _ (sublist_processDeleted ps s cnt fail)) hU

theorem WF_processModified {fs : FS} :
    ∀ (ps : List String) (s : Store) (cnt fail : Nat), WF s →
      WF (processModified fs s cnt fail ps).1 := by
  intro ps
  induction ps with
  | nil =>
      intro s cnt fail h
      exact h
  | cons p rest ih =>
      intro s cnt fail h
      unfold processModified
      rcases hb : (update_file fs s p).2 with _ | _
      · rw [if_neg (by simp)]
        exact ih _ _ _ (WF_update_file h)
      · rw [if_pos rfl]
        exact ih _ _ _ (WF_update_file h)

theorem WF_processDeleted :
    ∀ (ps : List String) (s : Store) (cnt fail : Nat), WF s →
      WF (processDeleted s cnt fail ps).1 := by
  intro ps
  induction ps with
  | nil =>
      intro s cnt fail h
      exact h
  | cons p rest ih =>
      intro s cnt fail h
      unfold processDeleted
      rcases hb : (delete_file s p).2 with _ | _
      · rw [if_neg (by simp)]
        exact ih _ _ _ (WF_delete_file h)
      · rw [if_pos rfl]
        exact ih _ _ _ (WF_delete_file h)

theorem WF_sync_notes {sk qk : Bool} {fs : FS} {s : Store} (h : WF s) :
    WF (sync_notes sk qk fs s).1 :=
  WF_processDeleted _ _ _ _
    (WF_processModified _ _ _ _ (WF_processNew _ _ _ _ h))

/-- After a successful reconciliation pass: paths are unique, the indexed
paths are exactly the on-disk paths, and every record is at least as new as
its file's mtime. -/
def Synced (fs : FS) (s : Store) : Prop :=
  uniquePaths s ∧
  (∀ p, p ∈ paths s ↔ p ∈ akeys fs) ∧
  (∀ kv ∈ sig s, ∃ fd, alookup kv.1 fs = some fd ∧ fd.mtime ≤ kv.2)

theorem sync_notes_fst (sk qk : Bool) (fs : FS) (s : Store) :
    (sync_notes sk qk fs s).1 =
      (processDeleted
        (processModified fs
          (processNew fs s 0 0
            (newFiles (get_filesystem_files sk fs)
              (get_weaviate_files (storeQuery s qk)))).1
          0 0
          (modifiedFiles (get_filesystem_files sk fs)
            (get_weaviate_files (storeQuery s qk)))).1
        0 0
        (deletedFiles (get_filesystem_files sk fs)
          (get_weaviate_files (storeQuery s qk)))).1 := rfl

theorem sync_notes_establishes (fs : FS) (s : Store) (hWF : WF s)
    (hU : uniquePaths s) (hlen : s.records.length ≤ 10000)
    (hfs : (akeys fs).Nodup) :
    Synced fs (sync_notes true true fs s).1 ∧ WF (sync_notes true true fs s).1 ∧
      (sync_notes true true fs s).1.records.length ≤ fs.length := by
  have hF := get_filesystem_files_self hfs
  have hI := get_weaviate_files_self hU hlen
  rw [sync_notes_fst, hF, hI]
  set nf := newFiles (fsDict fs) (sig s) with hnf
  set mf := modifiedFiles (fsDict fs) (sig s) with hmf
  set df := deletedFiles (fsDict fs) (sig s) with hdf
  have h_as : akeys (sig s) = paths s := (paths_eq_akeys_sig s).symm
  have h_fsd : (akeys (fsDict fs)).Nodup := by
    rw [akeys_fsDict]
    exact hfs
  have h_nf_mem : ∀ p, p ∈ nf ↔ p ∈ akeys fs ∧ p ∉ paths s := by
    intro p
    rw [hnf, mem_newFiles, akeys_fsDict, h_as]
  have h_nf_nd : nf.Nodup := by
    rw [hnf]
    unfold newFiles
    exact List.Nodup.filter _ h_fsd
  have h_mf_sub : ∀ p ∈ mf, p ∈ paths s ∧ p ∈ akeys fs := by
    intro p hp
    rw [hmf, mem_modifiedFiles, akeys_fsDict, h_as] at hp
    exact ⟨hp.2.1, hp.1⟩
  have h_mf_nd : mf.Nodup := by
    rw [hmf]
    unfold modifiedFiles
    exact List.Nodup.filter _ (List.Nodup.filter _ h_fsd)
  have h_df_mem : ∀ p, p ∈ df ↔ p ∈ paths s ∧ p ∉ akeys fs := by
    intro p
    rw [hdf, mem_deletedFiles, akeys_fsDict, h_as]
  -- stage 1: new files
  have h1sig := sig_processNew fs nf s 0 0
  have h1keys : paths (processNew fs s 0 0 nf).1 = paths s ++ nf := by
    rw [paths_eq_akeys_sig, h1sig, akeys_append, h_as, akeys_filterMap_lookup]
    have : nf.filter (fun p => (alookup p fs).isSome) = nf := by
      apply List.filter_eq_self.mpr
      intro p hp
      exact alookup_isSome.mpr ((h_nf_mem p).mp hp).1
    rw [this]
  have h1U : uniquePaths (processNew fs s 0 0 nf).1 := by
    unfold uniquePaths
    rw [h1keys]
    rw [List.nodup_append]
    refine ⟨hU, h_nf_nd, ?_⟩
    intro a ha hb
    exact ((h_nf_mem a).mp hb).2 ha
  have h1WF : WF (processNew fs s 0 0 nf).1 := WF_processNew nf s 0 0 hWF
  have hmem2 : ∀ p ∈ mf, p ∈ paths (processNew fs s 0 0 nf).1 ∧ p ∈ akeys fs := by
    intro p hp
    rw [h1keys]
    exact ⟨List.mem_append_left _ (h_mf_sub p hp).1, (h_mf_sub p hp).2⟩
  -- stage 2: modified files
  have h2 := sig_processModified fs mf (processNew fs s 0 0 nf).1 0 0 h1WF h1U hmem2 h_mf_nd
  -- stage 3: deleted files
  have h3 := sig_processDeleted df
    (processModified fs (processNew fs s 0 0 nf).1 0 0 mf).1 0 0 h2.2.1 h2.2.2
  have hpaths3 : paths (processDeleted
      (processModified fs (processNew fs s 0 0 nf).1 0 0 mf).1 0 0 df).1 =
      (paths s ++ nf).filter (fun x => decide (x ∉ df)) := by
    rw [paths_eq_akeys_sig, h3.1,
      akeys_filter_fst (fun x => decide (x ∉ df))
        (sig (processModified fs (processNew fs s 0 0 nf).1 0 0 mf).1),
      h2.1, akeys_map_updSig, ← paths_eq_akeys_sig, h1keys]
  refine ⟨⟨h3.2.2, ?_, ?_⟩, h3.2.1, ?_⟩
  · -- indexed paths are exactly the on-disk paths
    intro p
    rw [hpaths3, List.mem_filter, decide_eq_true_eq]
    constructor
    · rintro ⟨hin, hnd⟩
      rcases List.mem_append.mp hin with hin | hin
      · by_contra hna
        exact hnd ((h_df_mem p).mpr ⟨hin, hna⟩)
      · exact ((h_nf_mem p).mp hin).1
    · intro ha
      refine ⟨?_, ?_⟩
      · by_cases hps : p ∈ paths s
        · exact List.mem_append_left _ hps
        · exact List.mem_append_right _ ((h_nf_mem p).mpr ⟨ha, hps⟩)
      · intro hdfm
        exact ((h_df_mem p).mp hdfm).2 ha
  · -- every record is at least as new as its file
    intro kv hkv
    rw [h3.1, List.mem_filter, decide_eq_true_eq] at hkv
    rcases hkv with ⟨hkv2, hkdf⟩
    rw [h2.1] at hkv2
    rcases List.mem_map.mp hkv2 with ⟨kv0, hkv0, heq⟩
    rw [h1sig] at hkv0
    rcases List.mem_append.mp hkv0 with hkv0 | hkv0
    · -- the pair comes from an original record
      have hp_sig : kv0.1 ∈ paths s := by
        rw [← h_as]
        exact List.mem_map_of_mem Prod.fst hkv0
      by_cases hpm : kv0.1 ∈ mf
      · rcases Option.isSome_iff_exists.mp
          (alookup_isSome.mpr (h_mf_sub kv0.1 hpm).2) with ⟨fd, halk⟩
        have hkveq : kv = (kv0.1, fd.mtime) := by
          rw [← heq]
          unfold updSig
          rw [if_pos (by simpa using hpm), halk]
        rw [hkveq]
        exact ⟨fd, halk, le_refl _⟩
      · have hkveq : kv = kv0 := by
          rw [← heq]
          unfold updSig
          rw [if_neg (by simpa using hpm)]
        rw [hkveq] at hkdf ⊢
        have hpa : kv0.1 ∈ akeys fs := by
          by_contra hna
          exact hkdf ((h_df_mem kv0.1).mpr ⟨hp_sig, hna⟩)
        rcases Option.isSome_iff_exists.mp (alookup_isSome.mpr hpa) with ⟨fd, halk⟩
        refine ⟨fd, halk, ?_⟩
        by_contra hlt
        push_neg at hlt
        apply hpm
        rw [hmf]
        apply mem_modifiedFiles.mpr
        refine ⟨by rw [akeys_fsDict]; exact hpa, by rw [h_as]; exact hp_sig,
          fd.mtime, kv0.2, ?_, ?_, hlt⟩
        · rw [alookup_fsDict, halk]
          rfl
        · apply alookup_of_mem_nodup
          · rw [h_as]
            exact hU
          · exact hkv0
    · -- the pair comes from a newly indexed file
      rcases List.mem_filterMap.mp hkv0 with ⟨p, hpnf, hmap⟩
      rcases Option.map_eq_some'.mp hmap with ⟨fd, halk, hkv0eq⟩
      have hp_nmf : p ∉ mf := by
        intro hin
        exact ((h_nf_mem p).mp hpnf).2 (h_mf_sub p hin).1
      have hkveq : kv = kv0 := by
        rw [← heq]
        unfold updSig
        rw [← hkv0eq]
        rw [if_neg (by simpa using hp_nmf)]
      rw [hkveq, ← hkv0eq]
      exact ⟨fd, halk, le_refl _⟩
  · -- the resulting store is no larger than the filesystem
    have hsub : paths (processDeleted
        (processModified fs (processNew fs s 0 0 nf).1 0 0 mf).1 0 0 df).1 ⊆
        akeys fs := by
      intro p hp
      rw [hpaths3, List.mem_filter, decide_eq_true_eq] at hp
      rcases List.mem_append.mp hp.1 with hin | hin
      · by_contra hna
        exact hp.2 ((h_df_mem p).mpr ⟨hin, hna⟩)
      · exact ((h_nf_mem p).mp hin).1
    have hlen2 := (List.subperm_of_subset h3.2.2 hsub).length_le
    unfold paths at hlen2
    rw [List.length_map] at hlen2
    unfold akeys at hlen2
    rw [List.length_map] at hlen2
    exact hlen2

theorem synced_no_changes (fs : FS) (s : Store) (hS : Synced fs s)
    (hlen : s.records.length ≤ 10000) (hfs : (akeys fs).Nodup) :
    newFiles (get_filesystem_files true fs)
        (get_weaviate_files (storeQuery s true)) = [] ∧
    modifiedFiles (get_filesystem_files true fs)
        (get_weaviate_files (storeQuery s true)) = [] ∧
    deletedFiles (get_filesystem_files true fs)
        (get_weaviate_files (storeQuery s true)) = [] := by
  have hF := get_filesystem_files_self hfs
  have hI := get_weaviate_files_self hS.1 hlen
  rw [hF, hI]
  have h_as : akeys (sig s) = paths s := (paths_eq_akeys_sig s).symm
  refine ⟨?_, ?_, ?_⟩
  · unfold newFiles
    apply List.filter_eq_nil_iff.mpr
    intro p hp
    rw [akeys_fsDict] at hp
    simp only [decide_eq_true_eq]
    exact fun hno => hno (by rw [h_as]; exact (hS.2.1 p).mpr hp)
  · unfold modifiedFiles
    apply List.filter_eq_nil_iff.mpr
    intro p hp
    rcases List.mem_filter.mp hp with ⟨_, hpI⟩
    rw [decide_eq_true_eq] at hpI
    rcases Option.isSome_iff_exists.mp (alookup_isSome.mpr hpI) with ⟨b, hb⟩
    have hmem := alookup_mem hb
    rcases hS.2.2 (p, b) hmem with ⟨fd, halk, hle⟩
    have hlkF : alookup p (fsDict fs) = some fd.mtime := by
      rw [alookup_fsDict, halk]
      rfl
    rw [hlkF, hb]
    simp only [decide_eq_true_eq]
    exact not_lt.mpr hle
  · unfold deletedFiles
    apply List.filter_eq_nil_iff.mpr
    intro p hp
    rw [h_as] at hp
    simp only [decide_eq_true_eq]
    exact fun hno => hno (by rw [akeys_fsDict]; exact (hS.2.1 p).mp hp)

theorem sync_notes_result_counts (sk qk : Bool) (fs : FS) (s : Store) :
    (sync_notes sk qk fs s).2.new_files =
      (newFiles (get_filesystem_files sk fs)
        (get_weaviate_files (storeQuery s qk))).length ∧
    (sync_notes sk qk fs s).2.modified_files =
      (modifiedFiles (get_filesystem_files sk fs)
        (get_weaviate_files (storeQuery s qk))).length ∧
    (sync_notes sk qk fs s).2.deleted_files =
      (deletedFiles (get_filesystem_files sk fs)
        (get_weaviate_files (storeQuery s qk))).length :=
  ⟨rfl, rfl, rfl⟩

/-- Path uniqueness is preserved by a reconciliation pass whose scans both
succeed, provided the store fits within the 10000-object fetch limit. -/
theorem uniquePaths_sync_notes_true (fs : FS) (s : Store) (hU : uniquePaths s)
    (hlen : s.records.length ≤ 10000) :
    uniquePaths (sync_notes true true fs s).1 := by
  have hI := get_weaviate_files_self hU hlen
  rw [sync_notes_fst, hI]
  set F := get_filesystem_files true fs with hF
  set nf := newFiles F (sig s) with hnf
  set mf := modifiedFiles F (sig s) with hmf
  set df := deletedFiles F (sig s) with hdf
  have h_as : akeys (sig s) = paths s := (paths_eq_akeys_sig s).symm
  have hFk : (akeys F).Nodup := by
    rw [hF, get_filesystem_files_eq]
    exact nodup_akeys_buildDict _
  have hFfs : ∀ p ∈ akeys F, p ∈ akeys fs := by
    intro p hp
    rw [hF, get_filesystem_files_eq] at hp
    rw [mem_akeys_buildDict] at hp
    rw [show akeys (fs.map fun pf => (pf.1, pf.2.mtime)) = akeys fs from
      akeys_fsDict fs] at hp
    exact hp
  have h_nf_mem : ∀ p, p ∈ nf ↔ p ∈ akeys F ∧ p ∉ paths s := by
    intro p
    rw [hnf, mem_newFiles, h_as]
  have h_nf_nd : nf.Nodup := by
    rw [hnf]
    unfold newFiles
    exact List.Nodup.filter _ hFk
  have h1keys : paths (processNew fs s 0 0 nf).1 = paths s ++ nf := by
    rw [paths_eq_akeys_sig, sig_processNew, akeys_append, h_as,
      akeys_filterMap_lookup]
    have : nf.filter (fun p => (alookup p fs).isSome) = nf := by
      apply List.filter_eq_self.mpr
      intro p hp
      exact alookup_isSome.mpr (hFfs p ((h_nf_mem p).mp hp).1)
    rw [this]
  have h1U : uniquePaths (processNew fs s 0 0 nf).1 := by
    unfold uniquePaths
    rw [h1keys, List.nodup_append]
    refine ⟨hU, h_nf_nd, ?_⟩
    intro a ha hb
    exact ((h_nf_mem a).mp hb).2 ha
  have h2U : uniquePaths (processModified fs (processNew fs s 0 0 nf).1 0 0 mf).1 := by
    unfold uniquePaths
    rw [paths_processModified]
    exact h1U
  exact uniquePaths_processDeleted_any h2U

/-- Path uniqueness is preserved by a reconciliation pass whose filesystem
scan fails: such a pass only deletes records. -/
theorem uniquePaths_sync_notes_scanfail (qk : Bool) (fs : FS) (s : Store)
    (hU : uniquePaths s) : uniquePaths (sync_notes false qk fs s).1 :=
  uniquePaths_processDeleted_any hU

/-! ## Claim C3: idempotent reconciliation -/

/-- A store holding two records that share the path "a.md" — the store-side
situation that breaks idempotence of `sync_notes`. -/
def dupStore : Store :=
  { records :=
      [{ id := 1, file_path := "a.md", title := "t", content := "c",
         tags := [], created_at := 0, updated_at := 1 },
       { id := 2, file_path := "a.md", title := "t", content := "c",
         tags := [], created_at := 0, updated_at := 2 }],
    nextId := 3 }

/-- A one-file filesystem whose file is newer than both duplicate records. -/
def dupFs : FS :=
  [("a.md", { title := "t", tags := [], content := "c", ctime := 0, mtime := 5 })]

/-- Claim C3 as stated is false: starting from a store with two records at
the same path, the first `sync_notes` run updates the first duplicate, but
the snapshot dict maps the path to the second duplicate's older timestamp,
so the second run reports the path as modified again
(`modified_files = 1`, not `0`). -/
theorem sync_idempotence_counterexample :
    (sync_notes true true dupFs (sync_notes true true dupFs dupStore).1).2.modified_files = 1 ∧
    ¬ ((sync_notes true true dupFs (sync_notes true true dupFs dupStore).1).2.new_files = 0 ∧
       (sync_notes true true dupFs (sync_notes true true dupFs dupStore).1).2.modified_files = 0 ∧
       (sync_notes true true dupFs (sync_notes true true dupFs dupStore).1).2.deleted_files = 0) := by
  refine ⟨by decide, ?_⟩
  intro h
  have := h.2.1
  revert this
  decide

/-- Claim C3 (amended): reconciliation is idempotent provided the store
holds no duplicate paths and both the store and the filesystem fit within
the 10000-object fetch limit of `get_weaviate_files`: running `sync_notes`
twice with no intervening filesystem change yields a second result with
`new_files = 0`, `modified_files = 0` and `deleted_files = 0`. -/
theorem sync_idempotent_amended (fs : FS) (s : Store) (hWF : WF s)
    (hU : uniquePaths s) (hslen : s.records.length ≤ 10000)
    (hfs : (akeys fs).Nodup) (hflen : fs.length ≤ 10000) :
    (sync_notes true true fs (sync_notes true true fs s).1).2.new_files = 0 ∧
    (sync_notes true true fs (sync_notes true true fs s).1).2.modified_files = 0 ∧
    (sync_notes true true fs (sync_notes true true fs s).1).2.deleted_files = 0 := by
  obtain ⟨hS, hWF1, hlen1⟩ := sync_notes_establishes fs s hWF hU hslen hfs
  have hlen1' : (sync_notes true true fs s).1.records.length ≤ 10000 :=
    le_trans hlen1 hflen
  obtain ⟨hn, hm, hd⟩ := synced_no_changes fs _ hS hlen1' hfs
  have hres := sync_notes_result_counts true true fs (sync_notes true true fs s).1
  refine ⟨?_, ?_, ?_⟩
  · rw [hres.1, hn]
    rfl
  · rw [hres.2.1, hm]
    rfl
  · rw [hres.2.2, hd]
    rfl

/-- Witness instantiating the amended idempotence theorem on a concrete
one-file filesystem and empty store. -/
theorem sync_idempotent_amended_witness :
    (sync_notes true true dupFs (sync_notes true true dupFs
        { records := [], nextId := 0 }).1).2.new_files = 0 ∧
    (sync_notes true true dupFs (sync_notes true true dupFs
        { records := [], nextId := 0 }).1).2.modified_files = 0 ∧
    (sync_notes true true dupFs (sync_notes true true dupFs
        { records := [], nextId := 0 }).1).2.deleted_files = 0 :=
  sync_idempotent_amended dupFs { records := [], nextId := 0 }
    (by unfold WF; decide) (by unfold uniquePaths paths; decide) (by decide)
    (by decide) (by decide)

/-! ## Claim C5: path uniqueness -/

theorem uniquePaths_index_file {fs : FS} {s : Store} {p : String}
    (hU : uniquePaths s) (hnone : findByPath s p = none) :
    uniquePaths (index_file fs s p).1 := by
  unfold index_file
  rcases hp : parse_md_file fs p with _ | d
  · exact hU
  · have hdp : d.file_path = p := by
      rcases parse_md_file_eq_some.mp hp with ⟨fd, _, rfl⟩
      rfl
    unfold uniquePaths paths
    dsimp only
    rw [List.map_append, List.nodup_append]
    refine ⟨hU, by simp, ?_⟩
    intro x hx
    simp only [List.map_cons, List.map_nil, List.mem_cons, List.not_mem_nil,
      or_false]
    rcases List.mem_map.mp hx with ⟨q, hq, rfl⟩
    rw [hdp]
    exact findByPath_eq_none.mp hnone q hq

theorem uniquePaths_move_file {s : Store} {a b : String} (hWF : WF s)
    (hU : uniquePaths s) (hcond : b = a ∨ findByPath s b = none) :
    uniquePaths (move_file s a b).1 := by
  unfold move_file
  rcases hf : findByPath s a with _ | r
  · exact hU
  · have hrmem := (findByPath_some hf).1
    have hra := (findByPath_some hf).2
    unfold uniquePaths paths
    dsimp only
    rw [List.map_map]
    have hrec_nd : s.records.Nodup := List.Nodup.of_map _ hWF.1
    apply List.Nodup.map_on ?_ hrec_nd
    intro q1 h1 q2 h2 heq
    by_cases e1 : q1.id = r.id <;> by_cases e2 : q2.id = r.id
    · exact ((id_eq_iff_eq hWF hrmem q1 h1).mp e1).trans
        ((id_eq_iff_eq hWF hrmem q2 h2).mp e2).symm
    · exfalso
      simp only [Function.comp_apply, if_pos e1, if_neg e2] at heq
      rcases hcond with hc | hc
      · have : q2.file_path = r.file_path := by
          rw [← heq, hc, hra]
        exact e2 (((path_eq_iff_eq hU hrmem q2 h2).mp this) ▸ rfl)
      · exact findByPath_eq_none.mp hc q2 h2 heq.symm
    · exfalso
      simp only [Function.comp_apply, if_neg e1, if_pos e2] at heq
      rcases hcond with hc | hc
      · have : q1.file_path = r.file_path := by
          rw [heq, hc, hra]
        exact e1 (((path_eq_iff_eq hU hrmem q1 h1).mp this) ▸ rfl)
      · exact findByPath_eq_none.mp hc q1 h1 heq
    · simp only [Function.comp_apply, if_neg e1, if_neg e2] at heq
      exact (path_eq_iff_eq hU h2 q1 h1).mp heq

theorem uniquePaths_delete_file_any {s : Store} {p : String}
    (hU : uniquePaths s) : uniquePaths (delete_file s p).1 := by
  unfold uniquePaths
  unfold paths
  exact List.Nodup.sublist
    (List.Sublist.map _ (delete_file_records s p).1) hU

theorem WF_applyOp {s : Store} (op : Op) (h : WF s) : WF (applyOp s op) := by
  cases op with
  | created fs e =>
      show WF (on_created fs s e).1
      unfold on_created
      by_cases hf : should_process_event e.is_directory e.src_path = true
      · rw [if_pos hf]
        exact WF_index_file h
      · rw [if_neg hf]
        exact h
  | modified fs e =>
      show WF (on_modified fs s e).1
      unfold on_modified
      by_cases hf : should_process_event e.is_directory e.src_path = true
      · rw [if_pos hf]
        exact WF_update_file h
      · rw [if_neg hf]
        exact h
  | deleted e =>
      show WF (on_deleted s e).1
      unfold on_deleted
      by_cases hf : should_process_event e.is_directory e.src_path = true
      · rw [if_pos hf]
        exact WF_delete_file h
      · rw [if_neg hf]
        exact h
  | moved e =>
      show WF (on_moved s e).1
      unfold on_moved
      by_cases hf : should_process_event e.is_directory e.src_path = true
      · rw [if_pos hf]
        exact WF_move_file h
      · rw [if_neg hf]
        exact h
  | reconcile sk qk fs =>
      exact WF_sync_notes h

theorem uniquePaths_applyOp_safe {s : Store} {op : Op} (hWF : WF s)
    (hU : uniquePaths s) (hsafe : SafeOp s op) :
    uniquePaths (applyOp s op) := by
  cases op with
  | created fs e =>
      show uniquePaths (on_created fs s e).1
      unfold on_created
      by_cases hf : should_process_event e.is_directory e.src_path = true
      · rw [if_pos hf]
        exact uniquePaths_index_file hU (hsafe hf)
      · rw [if_neg hf]
        exact hU
  | modified fs e =>
      show uniquePaths (on_modified fs s e).1
      unfold on_modified
      by_cases hf : should_process_event e.is_directory e.src_path = true
      · rw [if_pos hf]
        exact uniquePaths_update_file hU
      · rw [if_neg hf]
        exact hU
  | deleted e =>
      show uniquePaths (on_deleted s e).1
      unfold on_deleted
      by_cases hf : should_process_event e.is_directory e.src_path = true
      · rw [if_pos hf]
        exact uniquePaths_delete_file_any hU
      · rw [if_neg hf]
        exact hU
  | moved e =>
      show uniquePaths (on_moved s e).1
      unfold on_moved
      by_cases hf : should_process_event e.is_directory e.src_path = true
      · rw [if_pos hf]
        exact uniquePaths_move_file hWF hU (hsafe hf)
      · rw [if_neg hf]
        exact hU
  | reconcile sk qk fs =>
      cases sk with
      | false => exact uniquePaths_sync_notes_scanfail qk fs s hU
      | true =>
          obtain ⟨hqk, hlen⟩ := hsafe rfl
          subst hqk
          exact uniquePaths_sync_notes_true fs s hU hlen

/-- Claim C5 as stated is false: starting from a store with unique paths
holding records at A and B, a live move event A → B passes the eligibility
filter, `move_file` rewrites the A record's path to B, and two records end
up sharing `file_path` B. -/
theorem path_uniqueness_counterexample :
    uniquePaths
      { records :=
          [{ id := 1, file_path := "a.md", title := "t", content := "c",
             tags := [], created_at := 0, updated_at := 1 },
           { id := 2, file_path := "b.md", title := "u", content := "d",
             tags := [], created_at := 0, updated_at := 1 }],
        nextId := 3 } ∧
    (applyOps
      { records :=
          [{ id := 1, file_path := "a.md", title := "t", content := "c",
             tags := [], created_at := 0, updated_at := 1 },
           { id := 2, file_path := "b.md", title := "u", content := "d",
             tags := [], created_at := 0, updated_at := 1 }],
        nextId := 3 }
      [Op.moved { is_directory := false, src_path := "a.md",
                  dest_path := "b.md" }]).records.countP
        (fun r => r.file_path = "b.md") = 2 := by
  constructor
  · unfold uniquePaths paths
    decide
  · decide

/-- Claim C5 (amended): path uniqueness is an invariant of
create/modify/delete/move/reconcile sequences provided every processed
create targets a path with no existing record, every processed move's
destination path is not held by another record, and every reconciliation
pass with a successful filesystem scan also has a successful store query
and a store within the 10000-object fetch limit; store ids are unique, as
Weaviate guarantees for uuids. -/
theorem path_uniqueness_amended :
    ∀ (ops : List Op) (s : Store), WF s → uniquePaths s → SafeSeq s ops →
      uniquePaths (applyOps s ops) := by
  intro ops
  induction ops with
  | nil =>
      intro s _ hU _
      exact hU
  | cons op rest ih =>
      intro s hWF hU hsafe
      exact ih (applyOp s op) (WF_applyOp op hWF)
        (uniquePaths_applyOp_safe hWF hU hsafe.1) hsafe.2

/-- Witness instantiating the amended path-uniqueness theorem: one create
event for a fresh path on an empty store. -/
theorem path_uniqueness_amended_witness :
    uniquePaths (applyOps { records := [], nextId := 0 }
      [Op.created dupFs { is_directory := false, src_path := "a.md" }]) :=
  path_uniqueness_amended
    [Op.created dupFs { is_directory := false, src_path := "a.md" }]
    { records := [], nextId := 0 }
    (by unfold WF; decide)
    (by unfold uniquePaths paths; decide)
    (by
      refine ⟨?_, trivial⟩
      intro _
      decide)

/-! ## Claim C6: deleted path with no record -/

theorem delete_file_not_found {s : Store} {p : String}
    (h : findByPath s p = none) : delete_file s p = (s, false) := by
  unfold delete_file
  rw [h]

/-- Claim C6 as stated is false: a deleted-set path with no matching store
record makes `delete_file` return `False`, and the deleted-files loop of
`sync_notes` counts that as a failure (`deleted_failed = 1`, not `0`). -/
theorem deleted_missing_counted_failed_counterexample :
    findByPath { records := [], nextId := 0 } "x.md" = none ∧
    (processDeleted { records := [], nextId := 0 } 0 0 ["x.md"]).2.2 = 1 := by
  decide

/-- Claim C6 (amended): during reconciliation, a deleted-set path for which
no store record is found is counted as a failure, not treated as already
consistent: `delete_file` returns `False` leaving the store unchanged, and
the deleted-files loop increments `deleted_failed` by one for it. -/
theorem deleted_missing_counted_failed (s : Store) (p : String)
    (cnt fail : Nat) (ps : List String) (h : findByPath s p = none) :
    delete_file s p = (s, false) ∧
    processDeleted s cnt fail (p :: ps) = processDeleted s cnt (fail + 1) ps := by
  have hd : delete_file s p = (s, false) := delete_file_not_found h
  refine ⟨hd, ?_⟩
  conv_lhs => rw [processDeleted]
  rw [hd, if_neg (by simp)]

/-- Witness for the amended C6 theorem at a concrete store and path. -/
theorem deleted_missing_counted_failed_witness :
    delete_file { records := [], nextId := 0 } "x.md" =
      ({ records := [], nextId := 0 }, false) ∧
    processDeleted { records := [], nextId := 0 } 0 0 ["x.md"] =
      processDeleted { records := [], nextId := 0 } 0 1 [] :=
  deleted_missing_counted_failed { records := [], nextId := 0 } "x.md" 0 0 []
    (by decide)

/-! ## Claim C1: scan failure behaviour -/

theorem counts_processDeleted :
    ∀ (ps : List String) (s : Store) (c f : Nat),
      (processDeleted s c f ps).2.1 + (processDeleted s c f ps).2.2 =
        c + f + ps.length := by
  intro ps
  induction ps with
  | nil =>
      intro s c f
      rfl
  | cons p rest ih =>
      intro s c f
      unfold processDeleted
      rcases hb : (delete_file s p).2 with _ | _
      · rw [if_neg (by simp)]
        rw [ih]
        simp [List.length_cons]
        omega
      · rw [if_pos rfl]
        rw [ih]
        simp [List.length_cons]
        omega

/-- A store holding exactly one record, at path "a.md". -/
def oneStore : Store :=
  { records :=
      [{ id := 1, file_path := "a.md", title := "t", content := "c",
         tags := [], created_at := 0, updated_at := 1 }],
    nextId := 2 }

/-- Claim C1 as stated is false: when the top-level filesystem scan fails,
`get_filesystem_files` swallows the error and returns the empty dict
(sync.py lines 50–52), so `sync_notes` proceeds, returns `success = true`,
and deletes every indexed record — here the pass deletes the only record
and reports one deletion. -/
theorem sync_scan_failure_counterexample :
    (sync_notes false true dupFs oneStore).2.success = true ∧
    (sync_notes false true dupFs oneStore).2.error = none ∧
    (sync_notes false true dupFs oneStore).2.deleted_count = 1 ∧
    (sync_notes false true dupFs oneStore).1.records = [] := by
  decide

/-- Claim C1 (amended): `sync_notes` always returns `success = true` and no
error message, because both snapshot helpers catch their own exceptions and
return the empty dict; a pass whose filesystem scan failed reports no new
or modified files and processes every snapshot-visible record as deleted
(performing the corresponding store deletions). -/
theorem sync_scan_failure_behavior (qk : Bool) (fs : FS) (s : Store) :
    (∀ sk : Bool, (sync_notes sk qk fs s).2.success = true ∧
      (sync_notes sk qk fs s).2.error = none) ∧
    (sync_notes false qk fs s).2.new_files = 0 ∧
    (sync_notes false qk fs s).2.modified_files = 0 ∧
    (sync_notes false qk fs s).2.deleted_files =
      (akeys (get_weaviate_files (storeQuery s qk))).length ∧
    (sync_notes false qk fs s).2.deleted_count +
      (sync_notes false qk fs s).2.deleted_failed =
      (akeys (get_weaviate_files (storeQuery s qk))).length := by
  have hdel : deletedFiles (get_filesystem_files false fs)
      (get_weaviate_files (storeQuery s qk)) =
      akeys (get_weaviate_files (storeQuery s qk)) := by
    unfold deletedFiles
    apply List.filter_eq_self.mpr
    intro p hp
    simp [get_filesystem_files, akeys]
  refine ⟨fun sk => ⟨rfl, rfl⟩, rfl, rfl, ?_, ?_⟩
  · have hres := (sync_notes_result_counts false qk fs s).2.2
    rw [hres, hdel]
  · have hc : (sync_notes false qk fs s).2.deleted_count =
        (processDeleted s 0 0 (deletedFiles (get_filesystem_files false fs)
          (get_weaviate_files (storeQuery s qk)))).2.1 := rfl
    have hf : (sync_notes false qk fs s).2.deleted_failed =
        (processDeleted s 0 0 (deletedFiles (get_filesystem_files false fs)
          (get_weaviate_files (storeQuery s qk)))).2.2 := rfl
    rw [hc, hf, counts_processDeleted, hdel]
    simp

/-! ## Claim C2: the change detector -/

/-- Claim C2: for every filesystem snapshot F and index snapshot I, the
change detector computes exactly `new = keys F minus keys I`,
`modified = those p in both key sets with F[p] strictly greater than I[p]`,
`deleted = keys I minus keys F`; the three sets are pairwise disjoint, and
a path present in both snapshots with an equal or older filesystem
timestamp is in none of them. -/
theorem change_detector_spec (F I : List (String × Int)) (p : String) :
    (p ∈ newFiles F I ↔ p ∈ akeys F ∧ p ∉ akeys I) ∧
    (p ∈ modifiedFiles F I ↔ p ∈ akeys F ∧ p ∈ akeys I ∧
      ∃ a b, alookup p F = some a ∧ alookup p I = some b ∧ b < a) ∧
    (p ∈ deletedFiles F I ↔ p ∈ akeys I ∧ p ∉ akeys F) ∧
    ¬ (p ∈ newFiles F I ∧ p ∈ modifiedFiles F I) ∧
    ¬ (p ∈ newFiles F I ∧ p ∈ deletedFiles F I) ∧
    ¬ (p ∈ modifiedFiles F I ∧ p ∈ deletedFiles F I) ∧
    (p ∈ akeys F → p ∈ akeys I →
      (∀ a b, alookup p F = some a → alookup p I = some b → a ≤ b) →
      p ∉ newFiles F I ∧ p ∉ modifiedFiles F I ∧ p ∉ deletedFiles F I) := by
  refine ⟨mem_newFiles, mem_modifiedFiles, mem_deletedFiles, ?_, ?_, ?_, ?_⟩
  · rintro ⟨h1, h2⟩
    exact (mem_newFiles.mp h1).2 (mem_modifiedFiles.mp h2).2.1
  · rintro ⟨h1, h2⟩
    exact (mem_newFiles.mp h1).2 (mem_deletedFiles.mp h2).1
  · rintro ⟨h1, h2⟩
    exact (mem_deletedFiles.mp h2).2 (mem_modifiedFiles.mp h1).1
  · intro hF hI hle
    refine ⟨?_, ?_, ?_⟩
    · intro h
      exact (mem_newFiles.mp h).2 hI
    · intro h
      rcases (mem_modifiedFiles.mp h).2.2 with ⟨a, b, ha, hb, hlt⟩
      exact absurd hlt (not_lt.mpr (hle a b ha hb))
    · intro h
      exact (mem_deletedFiles.mp h).2 hF

/-- Witness for the change detector theorem: a path present in both
snapshots with equal timestamps is in none of the three sets. -/
theorem change_detector_spec_witness :
    "a" ∉ newFiles [("a", (5 : Int))] [("a", (5 : Int))] ∧
    "a" ∉ modifiedFiles [("a", (5 : Int))] [("a", (5 : Int))] ∧
    "a" ∉ deletedFiles [("a", (5 : Int))] [("a", (5 : Int))] :=
  (change_detector_spec [("a", 5)] [("a", 5)] "a").2.2.2.2.2.2
    (by decide) (by decide)
    (by
      intro a b ha hb
      have h5 : alookup "a" [("a", (5 : Int))] = some 5 := by decide
      rw [h5] at ha hb
      have ha2 := Option.some.inj ha
      have hb2 := Option.some.inj hb
      omega)

/-! ## Claim C9: completeness of the index snapshot -/

/-- Injective family of paths used to build a store larger than the fetch
limit. -/
def bigPath (i : Nat) : String := String.mk (List.replicate (i + 1) 'a')

/-- One record per index, with pairwise distinct paths. -/
def bigNote (i : Nat) : IndexedNote :=
  { id := i, file_path := bigPath i, title := "", content := "",
    tags := [], created_at := 0, updated_at := 0 }

/-- The list n-1, n-2, ..., 0 (head-lazy, unlike `List.range`, so terms
stay cheap to reduce). -/
def descList : Nat → List Nat
  | 0 => []
  | n + 1 => n :: descList n

/-- A store with 10001 records, one more than `fetch_objects`'s
`limit=10000`. -/
def bigStore : Store :=
  { records := (descList 10001).map bigNote, nextId := 10001 }

theorem bigPath_inj {i j : Nat} (h : bigPath i = bigPath j) : i = j := by
  unfold bigPath at h
  have hd : List.replicate (i + 1) 'a' = List.replicate (j + 1) 'a' :=
    congrArg String.data h
  have := congrArg List.length hd
  rw [List.length_replicate, List.length_replicate] at this
  omega

theorem mem_descList : ∀ n i : Nat, i < n → i ∈ descList n := by
  intro n
  induction n with
  | zero =>
      intro i h
      omega
  | succ m ih =>
      intro i h
      unfold descList
      rcases Nat.lt_succ_iff_lt_or_eq.mp h with h2 | h2
      · exact List.mem_cons_of_mem _ (ih i h2)
      · rw [h2]
        exact List.mem_cons_self _ _

theorem mem_take_descList :
    ∀ (n k i : Nat), i ∈ (descList n).take k → n - k ≤ i ∧ i < n := by
  intro n
  induction n with
  | zero =>
      intro k i h
      simp [descList] at h
  | succ m ih =>
      intro k i h
      match k with
      | 0 => simp at h
      | k + 1 =>
          rw [show descList (m + 1) = m :: descList m from rfl,
            List.take_succ_cons] at h
          rcases List.mem_cons.mp h with h2 | h2
          · omega
          · have := ih k i h2
            omega

/-- Claim C9 as stated is false: `get_weaviate_files` queries with
`limit=10000`, so for a store of 10001 records the snapshot's keys omit the
path of a record that is currently in the store. -/
theorem snapshot_completeness_counterexample :
    ∃ r ∈ bigStore.records,
      r.file_path ∉ akeys (get_weaviate_files (storeQuery bigStore true)) := by
  refine ⟨bigNote 0, ?_, ?_⟩
  · exact List.mem_map_of_mem bigNote (mem_descList 10001 0 (by norm_num))
  · intro hmem
    rw [get_weaviate_files_eq, mem_akeys_buildDict] at hmem
    have htake : bigStore.records.take 10000 =
        ((descList 10001).take 10000).map bigNote :=
      (List.map_take bigNote (descList 10001) 10000).symm
    rw [htake] at hmem
    unfold akeys at hmem
    rw [List.map_map, List.map_map] at hmem
    rcases List.mem_map.mp hmem with ⟨i, hi, hpath⟩
    have hii : i = 0 := bigPath_inj hpath
    rw [hii] at hi
    have := mem_take_descList 10001 10000 0 hi
    omega

/-- Claim C9 (amended): the keys of the reconciliation index snapshot are
exactly the `file_path`s of the first 10000 records the store returns — the
snapshot is complete only for stores within the `limit=10000` of
`fetch_objects`. -/
theorem snapshot_keys_amended (s : Store) (p : String) :
    p ∈ akeys (get_weaviate_files (storeQuery s true)) ↔
      p ∈ (s.records.take 10000).map (fun r => r.file_path) := by
  rw [get_weaviate_files_eq, mem_akeys_buildDict]
  unfold akeys
  rw [List.map_map]
  rfl

/-! ## Claim C4: frame of a live move -/

/-- Claim C4 as helper: the full behaviour of `move_file`. -/
theorem move_file_frame_amended (s : Store) (A B : String) (hWF : WF s)
    (hA : ∃! q, q ∈ s.records ∧ q.file_path = A)
    (hB : ∀ q ∈ s.records, q.file_path = B → q.file_path = A) :
    ∃ r, findByPath s A = some r ∧ r.file_path = A ∧
      (move_file s A B).2 = true ∧
      (move_file s A B).1.records =
        s.records.map (fun q =>
          if q.id = r.id then { q with file_path := B } else q) ∧
      { r with file_path := B } ∈ (move_file s A B).1.records ∧
      (∀ q ∈ (move_file s A B).1.records, q.file_path = B →
        q = { r with file_path := B }) ∧
      (∀ q ∈ s.records, q ≠ r → q ∈ (move_file s A B).1.records) := by
  obtain ⟨r0, hr0, hr0u⟩ := hA
  rcases hf : findByPath s A with _ | r
  · exact absurd hr0.2 (findByPath_eq_none.mp hf r0 hr0.1)
  · have hrm := (findByPath_some hf).1
    have hrp := (findByPath_some hf).2
    have hrr0 : r = r0 := hr0u r ⟨hrm, hrp⟩
    have hrec : move_file s A B =
        ({ s with records := s.records.map (fun q =>
            if q.id = r.id then { q with file_path := B } else q) }, true) := by
      unfold move_file
      rw [hf]
    refine ⟨r, rfl, hrp, ?_, ?_, ?_, ?_, ?_⟩
    · rw [hrec]
    · rw [hrec]
    · rw [hrec]
      exact List.mem_map.mpr ⟨r, hrm, by rw [if_pos rfl]⟩
    · intro q hq hqB
      rw [hrec] at hq
      rcases List.mem_map.mp hq with ⟨q0, hq0, rfl⟩
      by_cases e : q0.id = r.id
      · rw [if_pos e]
        rw [(id_eq_iff_eq hWF hrm q0 hq0).mp e]
      · rw [if_neg e] at hqB ⊢
        have hBA := hB q0 hq0 hqB
        have hq0r0 : q0 = r0 := hr0u q0 ⟨hq0, hBA⟩
        exact absurd (congrArg IndexedNote.id (hq0r0.trans hrr0.symm)) e
    · intro q hq hqr
      rw [hrec]
      apply List.mem_map.mpr
      refine ⟨q, hq, ?_⟩
      rw [if_neg (fun e => hqr ((id_eq_iff_eq hWF hrm q hq).mp e))]

/-- Claim C4 as stated is false: with a second record already holding the
destination path, a live move A → B leaves two records with
`file_path = B`, so "afterwards exactly one record has file_path = B"
fails even though exactly one record had `file_path = A` beforehand. -/
theorem move_file_duplicate_counterexample :
    (({ records :=
          [{ id := 1, file_path := "a.md", title := "t", content := "c",
             tags := [], created_at := 0, updated_at := 1 },
           { id := 2, file_path := "b.md", title := "u", content := "d",
             tags := [], created_at := 0, updated_at := 1 }],
        nextId := 3 } : Store).records.countP
      (fun r => r.file_path = "a.md") = 1) ∧
    (move_file
      { records :=
          [{ id := 1, file_path := "a.md", title := "t", content := "c",
             tags := [], created_at := 0, updated_at := 1 },
           { id := 2, file_path := "b.md", title := "u", content := "d",
             tags := [], created_at := 0, updated_at := 1 }],
        nextId := 3 } "a.md" "b.md").1.records.countP
      (fun r => r.file_path = "b.md") = 2 := by
  decide

/-- Witness instantiating the amended move frame theorem on a one-record
store. -/
theorem move_file_frame_amended_witness :
    ∃ r, findByPath oneStore "a.md" = some r ∧ r.file_path = "a.md" ∧
      (move_file oneStore "a.md" "b.md").2 = true ∧
      (move_file oneStore "a.md" "b.md").1.records =
        oneStore.records.map (fun q =>
          if q.id = r.id then { q with file_path := "b.md" } else q) ∧
      { r with file_path := "b.md" } ∈ (move_file oneStore "a.md" "b.md").1.records ∧
      (∀ q ∈ (move_file oneStore "a.md" "b.md").1.records, q.file_path = "b.md" →
        q = { r with file_path := "b.md" }) ∧
      (∀ q ∈ oneStore.records, q ≠ r →
        q ∈ (move_file oneStore "a.md" "b.md").1.records) :=
  move_file_frame_amended oneStore "a.md" "b.md" (by unfold WF; decide)
    (by
      refine ⟨{ id := 1, file_path := "a.md", title := "t", content := "c",
                tags := [], created_at := 0, updated_at := 1 }, ⟨by decide, rfl⟩, ?_⟩
      intro q hq
      have hm : q ∈ oneStore.records := hq.1
      simp only [oneStore, List.mem_singleton] at hm
      exact hm)
    (by
      intro q hq hb
      simp only [oneStore, List.mem_singleton] at hq
      rw [hq] at hb
      exact absurd hb (by decide))

/-! ## Claim C7: updated_at monotonicity -/

/-- A filesystem whose file at "a.md" carries new content but the same
mtime the store already has. -/
def eqFs : FS :=
  [("a.md", { title := "t2", tags := [], content := "c2", ctime := 0,
              mtime := 1 })]

/-- Claim C7 as stated is false: a live modify event sets the record's
`updated_at` to the file's current mtime, which need not exceed the prior
value — here the title changes from "t" to "t2" (a real content update)
while `updated_at` stays 1, so it is not strictly greater. -/
theorem updated_at_monotonic_counterexample :
    (on_modified eqFs oneStore
      { is_directory := false, src_path := "a.md" }).2 = true ∧
    (update_file eqFs oneStore "a.md").2 = true ∧
    (update_file eqFs oneStore "a.md").1.records.map (fun r => r.title) = ["t2"] ∧
    oneStore.records.map (fun r => r.updated_at) = [1] ∧
    (update_file eqFs oneStore "a.md").1.records.map (fun r => r.updated_at) = [1] := by
  decide

/-- Claim C7 (amended): an update applied through reconciliation's modified
set strictly increases the record's `updated_at` (the `F[p] > I[p]` guard
ensures it), provided the store has unique paths and ids, the filesystem
snapshot has unique paths, and the store is within the fetch limit; a pure
rename leaves every record's `updated_at` unchanged.  A live modify simply
overwrites `updated_at` with the file's mtime, with no strictness
guarantee. -/
theorem updated_at_monotonic_amended :
    (∀ (fs : FS) (s : Store) (p : String), WF s → uniquePaths s →
      (akeys fs).Nodup → s.records.length ≤ 10000 →
      p ∈ modifiedFiles (get_filesystem_files true fs)
        (get_weaviate_files (storeQuery s true)) →
      ∃ r fd, findByPath s p = some r ∧ alookup p fs = some fd ∧
        r.updated_at < fd.mtime ∧ (update_file fs s p).2 = true ∧
        sig (update_file fs s p).1 =
          (sig s).map (fun kv => if kv.1 = p then (p, fd.mtime) else kv)) ∧
    (∀ (s : Store) (a b : String),
      (move_file s a b).1.records.map (fun r => r.updated_at) =
        s.records.map (fun r => r.updated_at)) := by
  constructor
  · intro fs s p hWF hU hfs hlen hm
    rw [get_filesystem_files_self hfs, get_weaviate_files_self hU hlen] at hm
    rcases mem_modifiedFiles.mp hm with ⟨hpF, hpI, a, b, ha, hb, hlt⟩
    rw [alookup_fsDict] at ha
    rcases Option.map_eq_some'.mp ha with ⟨fd, hfd, hfda⟩
    have hpmem : p ∈ paths s := by
      rw [paths_eq_akeys_sig]
      exact hpI
    rcases findByPath_mem_paths hpmem with ⟨r, hfind⟩
    have hrm := (findByPath_some hfind).1
    have hrp := (findByPath_some hfind).2
    rcases List.mem_map.mp (alookup_mem hb) with ⟨r1, hr1, heq⟩
    have hr1p : r1.file_path = p := congrArg Prod.fst heq
    have hr1b : r1.updated_at = b := congrArg Prod.snd heq
    have hr1r : r1 = r := (path_eq_iff_eq hU hrm r1 hr1).mp (hr1p.trans hrp.symm)
    have hrb : r.updated_at = b := hr1r ▸ hr1b
    have hparse : parse_md_file fs p = some
        { title := fd.title, tags := fd.tags, content := fd.content,
          file_path := p, created_at := fd.ctime, updated_at := fd.mtime } := by
      unfold parse_md_file
      rw [hfd]
      rfl
    have hsu := sig_update_file hWF hU hfind hparse
    refine ⟨r, fd, hfind, hfd, ?_, hsu.2, hsu.1⟩
    rw [hfda, hrb]
    exact hlt
  · intro s a b
    unfold move_file
    rcases h : findByPath s a with _ | r
    · rfl
    · dsimp only
      rw [List.map_map]
      apply List.map_congr_left
      intro q _
      by_cases e : q.id = r.id
      · simp [e]
      · simp [e]

/-- Witness instantiating the amended monotonicity theorem: the one-record
store with a strictly newer file. -/
theorem updated_at_monotonic_amended_witness :
    ∃ r fd, findByPath oneStore "a.md" = some r ∧
      alookup "a.md" dupFs = some fd ∧
      r.updated_at < fd.mtime ∧ (update_file dupFs oneStore "a.md").2 = true ∧
      sig (update_file dupFs oneStore "a.md").1 =
        (sig oneStore).map
          (fun kv => if kv.1 = "a.md" then ("a.md", fd.mtime) else kv) :=
  updated_at_monotonic_amended.1 dupFs oneStore "a.md" (by unfold WF; decide)
    (by unfold uniquePaths paths; decide) (by decide) (by decide) (by decide)

/-! ## Claim C8: the move filter checks the source path -/

/-- Move events used in the C8 counterexample and witness. -/
def mvBadDest : MoveEvent :=
  { is_directory := false, src_path := "a.md", dest_path := "b.txt" }

/-- A move whose source fails the filter but whose destination passes. -/
def mvBadSrc : MoveEvent :=
  { is_directory := false, src_path := "a.txt", dest_path := "b.md" }

/-- A fully eligible move. -/
def mvGood : MoveEvent :=
  { is_directory := false, src_path := "a.md", dest_path := "b.md" }

/-- Claim C8 as stated is false: `on_moved` applies the eligibility filter
to the event's `src_path` (file_watcher.py line 121).  A move whose
destination fails the filter but whose source passes it is processed (the
record's path becomes the ineligible "b.txt"), while a move whose
destination passes but whose source fails is dropped with no effect. -/
theorem on_moved_dest_filter_counterexample :
    should_process_event false "b.txt" = false ∧
    (on_moved oneStore mvBadDest).2 = true ∧
    (on_moved oneStore mvBadDest).1.records.map (fun r => r.file_path) = ["b.txt"] ∧
    should_process_event false "b.md" = true ∧
    (on_moved oneStore mvBadSrc).2 = false ∧
    (on_moved oneStore mvBadSrc).1 = oneStore := by
  decide

/-- Claim C8 (amended): whether the live watcher processes or ignores a
move event is decided by the eligibility of the SOURCE path: the event is
dispatched to `move_file` exactly when `src_path` passes the filter, and
when it does not the store is untouched; the destination path plays no role
in the decision. -/
theorem on_moved_src_filter (s : Store) (e : MoveEvent) :
    (on_moved s e).2 = should_process_event e.is_directory e.src_path ∧
    (should_process_event e.is_directory e.src_path = false →
      on_moved s e = (s, false)) ∧
    (should_process_event e.is_directory e.src_path = true →
      (on_moved s e).1 = (move_file s e.src_path e.dest_path).1) := by
  unfold on_moved
  by_cases hf : should_process_event e.is_directory e.src_path = true
  · refine ⟨?_, ?_, ?_⟩
    · rw [if_pos hf, hf]
    · intro h
      rw [hf] at h
      exact absurd h (by decide)
    · intro _
      rw [if_pos hf]
  · have hf2 : should_process_event e.is_directory e.src_path = false := by
      revert hf
      cases should_process_event e.is_directory e.src_path <;> simp
    refine ⟨?_, ?_, ?_⟩
    · rw [if_neg hf, hf2]
    · intro _
      rw [if_neg hf]
    · intro h
      rw [hf2] at h
      exact absurd h (by decide)

/-- Witness for the amended C8 theorem: an eligible source dispatches the
move. -/
theorem on_moved_src_filter_witness :
    (on_moved oneStore mvGood).1 = (move_file oneStore "a.md" "b.md").1 :=
  (on_moved_src_filter oneStore mvGood).2.2 (by decide)

/-! ## Claim C10: the eligibility filter is four checks -/

theorem getLast?_of_isSuffix {l1 l2 : List Char} (h : l1 <:+ l2)
    (hne : l1 ≠ []) : l2.getLast? = l1.getLast? := by
  rcases h with ⟨t, rfl⟩
  exact List.getLast?_append_of_ne_nil t hne

theorem suffixOf_suffix (name : List Char) :
    suffixOf name <:+ name ∨ suffixOf name = [] := by
  unfold suffixOf
  rcases h : ((name.enum.filter (fun ia => ia.2 = '.')).map
      (fun ia => ia.1)).getLast? with _ | i
  · right
    rw [h]
  · rw [h]
    dsimp only
    by_cases hc : 0 < i ∧ i < name.length - 1
    · left
      rw [if_pos hc]
      exact List.drop_suffix i name
    · right
      rw [if_neg hc]

/-- A name ending in one of the temporary suffixes cannot have the
(case-insensitive) `.md` extension: the temporary suffixes end in 'p',
while the extension forces the last character to lower to 'd'. -/
theorem temp_not_md {name : List Char} (h : tempSuffixCheck name = true) :
    ¬ (suffixOf name).map Char.toLower = ".md".data := by
  intro hmd
  have hlastp : name.getLast? = some 'p' := by
    unfold tempSuffixCheck at h
    rw [List.any_eq_true] at h
    rcases h with ⟨e, he, hsuf⟩
    rw [List.isSuffixOf_iff_suffix] at hsuf
    have hee : e = ".tmp" ∨ e = ".swp" ∨ e = ".temp" := by simpa using he
    have hlast : e.data.getLast? = some 'p' := by
      rcases hee with rfl | rfl | rfl <;> decide
    have hne : e.data ≠ [] := by
      rcases hee with rfl | rfl | rfl <;> decide
    rw [getLast?_of_isSuffix hsuf hne]
    exact hlast
  have hdlast := congrArg List.getLast? hmd
  rw [List.getLast?_map] at hdlast
  have hdl : (suffixOf name).getLast?.map Char.toLower = some 'd' := by
    rw [hdlast]
    decide
  rcases Option.map_eq_some'.mp hdl with ⟨c, hc, hcd⟩
  have hsufne : suffixOf name ≠ [] := by
    intro h0
    rw [h0] at hmd
    exact absurd hmd (by decide)
  rcases suffixOf_suffix name with hss | hss
  · have hname := getLast?_of_isSuffix hss hsufne
    rw [hlastp, hc] at hname
    have hcp : c = 'p' := (Option.some.inj hname).symm
    rw [hcp] at hcd
    exact absurd hcd (by decide)
  · exact hsufne hss

/-- Claim C10: `should_process_event` is equivalent to the conjunction of
four checks only — not a directory event, `.md` extension
(case-insensitive), no leading dot, no leading or trailing tilde; the
temporary-suffix check never rejects an event on its own since a name
ending in `.tmp`, `.swp` or `.temp` already fails the `.md` extension
check. -/
theorem eligibility_four_checks (isDir : Bool) (p : String) :
    should_process_event isDir p = eligibleFourChecks isDir p ∧
    (tempSuffixCheck (pathName p) = true →
      ¬ (suffixOf (pathName p)).map Char.toLower = ".md".data) := by
  refine ⟨?_, fun h => temp_not_md h⟩
  unfold should_process_event eligibleFourChecks
  cases isDir
  · dsimp only
    by_cases hmd : (suffixOf (pathName p)).map Char.toLower = ".md".data
    · have htemp : tempSuffixCheck (pathName p) = false := by
        rcases hb : tempSuffixCheck (pathName p) with _ | _
        · rfl
        · exact absurd hmd (temp_not_md hb)
      by_cases hdot : (pathName p).head? = some '.'
      · by_cases htl : ((pathName p).head? = some '~' ∨
            (pathName p).getLast? = some '~')
        · simp [hmd, htemp, hdot, htl]
        · simp [hmd, htemp, hdot, htl]
      · by_cases htl : ((pathName p).head? = some '~' ∨
            (pathName p).getLast? = some '~')
        · simp [hmd, htemp, hdot, htl]
        · simp [hmd, htemp, hdot, htl]
    · rw [if_pos hmd]
      simp [hmd]
  · rfl

/-- Witness for the eligibility theorem: a plain markdown name agrees with
the four-check form, and a name ending in ".tmp" fails the extension check
rather than only the temporary-suffix check. -/
theorem eligibility_four_checks_witness :
    should_process_event false "note.md" = eligibleFourChecks false "note.md" ∧
    ¬ (suffixOf (pathName "x.md.tmp")).map Char.toLower = ".md".data :=
  ⟨(eligibility_four_checks false "note.md").1,
   (eligibility_four_checks false "x.md.tmp").2 (by decide)⟩
